import Mathlib

/-!
# Verification of the fed3 core data engine

Shallow embedding of the fed3 repository's core operations
(`fed3/core/fedframe.py`, `fed3/core/fedfuncs.py`, `fed3/lightcycle.py`)
and proofs about them.

Modelling conventions:
* A record ("row") of a FEDFrame carries its timestamp (in whole seconds,
  as a natural number), the three reset-eligible cumulative counter columns
  `Pellet_Count`, `Left_Poke_Count`, `Right_Poke_Count` (integers, as in the
  pandas int64 columns), the value of the `Event` column and of the
  `Concat_#` column.  Whether the `Event` / `Concat_#` columns are actually
  present in a frame is a frame-level flag (`hasEvent` / `hasConcat`),
  mirroring the `'Event' in self.columns` tests of the source.
* pandas `NaN` entries of a derived series are modelled with `Option`
  (`none` = not available).
* Values measured in minutes (interpellet intervals, fractional hours) are
  exact rationals; `Rat.divInt` is used to build them so that they stay
  kernel-computable, and bridging lemmas relate this to the `x / 60` form
  of the source.
* Exceptions (`raise ValueError` etc.) are modelled with `Except String`.
-/

namespace Fed3

/-- One record of a FEDFrame: timestamp (seconds), the three reset-eligible
counter columns, the `Event` column value and the `Concat_#` column value. -/
structure Row where
  t : Nat
  pellet : Int
  left : Int
  right : Int
  event : String
  concatn : Nat
deriving DecidableEq

/-- The three reset-eligible counter columns, i.e. the default
`reset_columns = ('Pellet_Count', 'Left_Poke_Count', 'Right_Poke_Count')`
of `fedfuncs.concat` / `fedfuncs.split`. -/
inductive ResetCol where
  | pellet
  | left
  | right
deriving DecidableEq

/-- Value of a reset-eligible counter column in a row. -/
def Row.col (r : Row) : ResetCol → Int
  | .pellet => r.pellet
  | .left => r.left
  | .right => r.right

/-- The column-wise loop `for col, offset in offsets.items(): df[col] += offset`
of `fedfuncs.concat`. -/
def addOffsets (offs : ResetCol → Int) (r : Row) : Row :=
  Row.mk r.t (r.pellet + offs .pellet) (r.left + offs .left)
    (r.right + offs .right) r.event r.concatn

/-- The column-wise loop `subset[col] -= offsets[col]` of `fedfuncs.split`. -/
def subOffsets (offs : ResetCol → Int) (r : Row) : Row :=
  Row.mk r.t (r.pellet - offs .pellet) (r.left - offs .left)
    (r.right - offs .right) r.event r.concatn

/-- `df['Concat_#'] = i` (performed row-wise). -/
def setConcatNum (i : Nat) (r : Row) : Row :=
  Row.mk r.t r.pellet r.left r.right r.event i

/-- `FEDFrame.start_time`: first timestamp (`self.index.values[0]`).
Total stand-in: `0` on an empty frame (where pandas would raise). -/
def startTime : List Row → Nat
  | [] => 0
  | r :: _ => r.t

/-- `FEDFrame.end_time`: last timestamp (`self.index.values[-1]`).
Total stand-in: `0` on an empty frame (where pandas would raise). -/
def endTime : List Row → Nat
  | [] => 0
  | [r] => r.t
  | _ :: r :: rs => endTime (r :: rs)

/-- `Series.max()` of a reset-eligible column over the rows of a frame
(`df[col].max()`); `0` on an empty frame, where pandas would give `NaN`
(`concat` and `split` only take maxima of non-empty slices). -/
def colMax (c : ResetCol) : List Row → Int
  | [] => 0
  | r :: rs => rs.foldl (fun acc x => max acc (x.col c)) (r.col c)

/-- Stable insertion of a frame into a list of frames ordered by start time. -/
def insertByStart (x : List Row) : List (List Row) → List (List Row)
  | [] => [x]
  | y :: ys =>
      if startTime x ≤ startTime y then x :: y :: ys else y :: insertByStart x ys

/-- `sorted(feds, key=lambda x: x.start_time)`: stable sort by start time. -/
def sortByStart (feds : List (List Row)) : List (List Row) :=
  feds.foldr insertByStart []

/-- The loop of `fedfuncs.can_concat`: scan the sorted frames and fail as soon
as a frame starts no later than its predecessor ends. -/
def chainOk : List (List Row) → Bool
  | a :: b :: rest => decide (endTime a < startTime b) && chainOk (b :: rest)
  | _ => true

/-- `fedfuncs.can_concat`: frames can be concatenated when, after sorting by
start time, no frame's start time is `<=` the previous frame's end time. -/
def canConcat (feds : List (List Row)) : Bool :=
  chainOk (sortByStart feds)

/-- Main loop of `fedfuncs.concat` over the sorted frames: tag each frame with
its concat number (when `add_concat_number`), shift the reset-eligible columns
of every frame but the first by the running offsets, and update each offset to
the maximum of the (already shifted) column. -/
def concatGo (addTag : Bool) : Nat → (ResetCol → Int) → List (List Row) → List Row
  | _, _, [] => []
  | i, offs, seg :: rest =>
      let df := if addTag then seg.map (setConcatNum i) else seg
      let df' := if i = 0 then df else df.map (addOffsets offs)
      df' ++ concatGo addTag (i + 1) (fun c => colMax c df') rest

/-- `fedfuncs.concat` (with the default `reset_columns`).  The name handling
and the final `_load_init` call of the source touch only metadata, not the
row data, and are omitted.  Raises `ValueError` when `can_concat` fails. -/
def concat (feds : List (List Row)) (addTag : Bool) : Except String (List Row) :=
  if canConcat feds then
    Except.ok (concatGo addTag 0 (fun _ => 0) (sortByStart feds))
  else
    Except.error "FEDFrame dates overlap, cannot concat."

/-- The `pd.Timestamp('01-01-1970')` sentinel of `_split_handle_dates`,
i.e. second `0` of the epoch. -/
def oldDate : Nat := 0

/-- The `pd.Timestamp('12-31-2200')` sentinel of `_split_handle_dates`,
as seconds of the epoch. -/
def futureDate : Nat := 7289049600

/-- `fedfuncs._split_handle_dates` for a list of dates:
`[old] + dates + [future]`. -/
def splitHandleDates (dates : List Nat) : List Nat :=
  oldDate :: (dates ++ [futureDate])

/-- The consecutive `(dates[i], dates[i+1])` brackets iterated by the loop of
`fedfuncs.split`. -/
def brackets : List Nat → List (Nat × Nat)
  | a :: b :: rest => (a, b) :: brackets (b :: rest)
  | _ => []

/-- Main loop of `fedfuncs.split` (with `return_empty=False`, the default):
slice the frame to `start <= t < end` for each bracket, drop empty slices,
subtract the current offsets from each reset-eligible column and update each
offset to the maximum of the (already rebased) column of this slice.
The `tag_name` renaming of the source touches only metadata and is omitted. -/
def splitGo (fed : List Row) : (ResetCol → Int) → List (Nat × Nat) → List (List Row)
  | _, [] => []
  | offs, (s, e) :: rest =>
      let subset := fed.filter (fun r => decide (s ≤ r.t) && decide (r.t < e))
      if subset.isEmpty then splitGo fed offs rest
      else
        let subset' := subset.map (subOffsets offs)
        subset' :: splitGo fed (fun c => colMax c subset') rest

/-- `fedfuncs.split` with the default `reset_columns` and `return_empty=False`. -/
def split (fed : List Row) (dates : List Nat) : List (List Row) :=
  splitGo fed (fun _ => 0) (brackets (splitHandleDates dates))

/-- The timestamp and the three counter values of a row — what claims about
counter reconstruction compare, ignoring the `Concat_#` tag and the
`Event` column. -/
def stripTag (r : Row) : Nat × Int × Int × Int :=
  (r.t, r.pellet, r.left, r.right)

/-! ### Basic row and column lemmas -/

theorem Row_col_setConcatNum (i : Nat) (r : Row) (c : ResetCol) :
    (setConcatNum i r).col c = r.col c := by
  cases c <;> rfl

theorem Row_t_setConcatNum (i : Nat) (r : Row) : (setConcatNum i r).t = r.t := rfl

theorem Row_col_addOffsets (o : ResetCol → Int) (r : Row) (c : ResetCol) :
    (addOffsets o r).col c = r.col c + o c := by
  cases c <;> rfl

theorem Row_t_addOffsets (o : ResetCol → Int) (r : Row) : (addOffsets o r).t = r.t := rfl

theorem Row_col_subOffsets (o : ResetCol → Int) (r : Row) (c : ResetCol) :
    (subOffsets o r).col c = r.col c - o c := by
  cases c <;> rfl

theorem Row_t_subOffsets (o : ResetCol → Int) (r : Row) : (subOffsets o r).t = r.t := rfl

theorem subOffsets_zero (r : Row) : subOffsets (fun _ => 0) r = r := by
  cases r; simp [subOffsets]

theorem stripTag_setConcatNum (i : Nat) (r : Row) :
    stripTag (setConcatNum i r) = stripTag r := rfl

theorem stripTag_roundtrip (o : ResetCol → Int) (i : Nat) (r : Row) :
    stripTag (addOffsets o (setConcatNum i (subOffsets o r))) = stripTag r := by
  cases r; simp [stripTag, addOffsets, setConcatNum, subOffsets]

/-! ### `colMax`, `startTime`, `endTime` lemmas -/

theorem le_foldl_max (g : Row → Int) (l : List Row) (a : Int) :
    a ≤ l.foldl (fun acc x => max acc (g x)) a := by
  induction l generalizing a with
  | nil => exact le_refl a
  | cons x xs ih => exact le_trans (le_max_left a (g x)) (ih (max a (g x)))

theorem mem_le_foldl_max (g : Row → Int) :
    ∀ (l : List Row) (a : Int) (r : Row), r ∈ l →
      g r ≤ l.foldl (fun acc x => max acc (g x)) a := by
  intro l
  induction l with
  | nil => intro a r h; cases h
  | cons x xs ih =>
      intro a r h
      rcases List.mem_cons.mp h with h | h
      · subst h; exact le_trans (le_max_right a (g r)) (le_foldl_max g xs _)
      · exact ih _ r h

theorem le_colMax (c : ResetCol) (l : List Row) (r : Row) (h : r ∈ l) :
    r.col c ≤ colMax c l := by
  cases l with
  | nil => cases h
  | cons x xs =>
      rcases List.mem_cons.mp h with h | h
      · subst h; exact le_foldl_max (fun y => y.col c) xs _
      · exact mem_le_foldl_max (fun y => y.col c) xs _ r h

theorem startTime_cons (r : Row) (l : List Row) : startTime (r :: l) = r.t := rfl

theorem startTime_map (f : Row → Row) (hf : ∀ r, (f r).t = r.t) (l : List Row) :
    startTime (l.map f) = startTime l := by
  cases l with
  | nil => rfl
  | cons x xs => simp [startTime, hf]

theorem endTime_eq_getLast (l : List Row) (h : l ≠ []) :
    endTime l = (l.getLast h).t := by
  induction l with
  | nil => cases h rfl
  | cons x xs ih =>
      cases xs with
      | nil => rfl
      | cons y ys => simpa [endTime] using ih (by simp)

theorem endTime_map (f : Row → Row) (hf : ∀ r, (f r).t = r.t) (l : List Row) :
    endTime (l.map f) = endTime l := by
  induction l with
  | nil => rfl
  | cons x xs ih =>
      cases xs with
      | nil => simpa [endTime] using hf x
      | cons y ys => simpa [endTime] using ih

theorem colMax_map_colPreserving (c : ResetCol) (f : Row → Row)
    (hf : ∀ r, (f r).col c = r.col c) (l : List Row) :
    colMax c (l.map f) = colMax c l := by
  cases l with
  | nil => rfl
  | cons x xs =>
      simp only [List.map_cons, colMax, hf]
      rw [List.foldl_map]
      simp only [hf]

/-! ### Sorting by start time -/

theorem insertByStart_perm (x : List Row) (l : List (List Row)) :
    List.Perm (insertByStart x l) (x :: l) := by
  induction l with
  | nil => rfl
  | cons y ys ih =>
      by_cases h : startTime x ≤ startTime y
      · simp [insertByStart, h]
      · simp only [insertByStart, if_neg h]
        exact (ih.cons y).trans (List.Perm.swap x y ys)

theorem sortByStart_perm (feds : List (List Row)) :
    List.Perm (sortByStart feds) feds := by
  induction feds with
  | nil => rfl
  | cons f fs ih =>
      exact (insertByStart_perm f (sortByStart fs)).trans (ih.cons f)

theorem mem_sortByStart (feds : List (List Row)) (x : List Row) :
    x ∈ sortByStart feds ↔ x ∈ feds :=
  (sortByStart_perm feds).mem_iff

theorem chainOk_iff_chain' (l : List (List Row)) :
    chainOk l = true ↔ List.Chain' (fun a b => endTime a < startTime b) l := by
  induction l with
  | nil => simp [chainOk]
  | cons a rest ih =>
      cases rest with
      | nil => simp [chainOk]
      | cons b rest' =>
          rw [List.chain'_cons, ← ih]
          simp [chainOk]

/-! ### Sorted partition of a frame by a date -/

theorem filter_lt_append_filter_ge (fed : List Row) (d : Nat)
    (hsort : List.Pairwise (fun a b => a.t < b.t) fed) :
    fed.filter (fun r => decide (r.t < d)) ++ fed.filter (fun r => decide (d ≤ r.t)) = fed := by
  induction fed with
  | nil => rfl
  | cons x xs ih =>
      rcases List.pairwise_cons.mp hsort with ⟨hx, hxs⟩
      by_cases h : x.t < d
      · have hd1 : decide (x.t < d) = true := by simpa using h
        have hd2 : decide (d ≤ x.t) = false := by simp; omega
        simp only [List.filter_cons, hd1, hd2, if_true, if_false]
        simpa using ih hxs
      · have hd1 : decide (x.t < d) = false := by simpa using h
        have hd2 : decide (d ≤ x.t) = true := by simp; omega
        have h1 : xs.filter (fun r => decide (r.t < d)) = [] := by
          apply List.filter_eq_nil_iff.mpr
          intro y hy
          have := hx y hy
          simp only [decide_eq_true_eq]
          omega
        have h3 : xs.filter (fun r => decide (d ≤ r.t)) = xs := by
          apply List.filter_eq_self.mpr
          intro y hy
          have := hx y hy
          simp only [decide_eq_true_eq]
          omega
        simp only [List.filter_cons, hd1, hd2, if_true, if_false, h1, h3]
        rfl

theorem filter_ne_nil_of_mem (fed : List Row) (p : Row → Bool) (r : Row)
    (hr : r ∈ fed) (hp : p r = true) : fed.filter p ≠ [] :=
  List.ne_nil_of_mem (List.mem_filter.mpr ⟨hr, hp⟩)

/-! ### Monotonicity of the concat loop -/

theorem concatGo_chain (c : ResetCol) (addTag : Bool) :
    ∀ (segs : List (List Row)) (i : Nat) (offs : ResetCol → Int), i ≠ 0 →
      (∀ seg ∈ segs, seg ≠ []) →
      (∀ seg ∈ segs, List.Chain' (fun a b => a.col c ≤ b.col c) seg) →
      (∀ seg ∈ segs, ∀ r ∈ seg, 0 ≤ r.col c) →
      List.Chain' (fun a b => a.col c ≤ b.col c) (concatGo addTag i offs segs) ∧
        (∀ x ∈ (concatGo addTag i offs segs).head?, offs c ≤ x.col c) := by
  intro segs
  induction segs with
  | nil =>
      intro i offs _ _ _ _
      constructor
      · exact List.chain'_nil
      · intro x hx; simp [concatGo] at hx
  | cons seg rest ih =>
      intro i offs hi hne hchain hnonneg
      have hseg_ne : seg ≠ [] := hne seg (List.mem_cons_self _ _)
      have hseg_chain := hchain seg (List.mem_cons_self _ _)
      have hseg_nonneg := hnonneg seg (List.mem_cons_self _ _)
      -- facts about the (possibly tagged) frame df
      set df := if addTag then seg.map (setConcatNum i) else seg with hdf_def
      have hdf_ne : df ≠ [] := by
        rw [hdf_def]
        split
        · simpa using hseg_ne
        · exact hseg_ne
      have hdf_chain : List.Chain' (fun a b => a.col c ≤ b.col c) df := by
        rw [hdf_def]
        split
        · rw [List.chain'_map]
          simpa [Row_col_setConcatNum] using hseg_chain
        · exact hseg_chain
      have hdf_nonneg : ∀ r ∈ df, 0 ≤ r.col c := by
        rw [hdf_def]
        split
        · intro r hr
          rcases List.mem_map.mp hr with ⟨s, hs, rfl⟩
          rw [Row_col_setConcatNum]
          exact hseg_nonneg s hs
        · exact hseg_nonneg
      -- the shifted frame
      have hgo : concatGo addTag i offs (seg :: rest) =
          df.map (addOffsets offs) ++
            concatGo addTag (i + 1) (fun c' => colMax c' (df.map (addOffsets offs))) rest := by
        simp only [concatGo, ← hdf_def, if_neg hi]
      set df' := df.map (addOffsets offs) with hdfSdef
      have hdfSchain : List.Chain' (fun a b => a.col c ≤ b.col c) df' := by
        rw [hdfSdef, List.chain'_map]
        refine List.Chain'.imp ?_ hdf_chain
        intro a b hab
        simp only [Row_col_addOffsets]
        omega
      have hih := ih (i + 1) (fun c' => colMax c' df') (by omega)
        (fun s hs => hne s (List.mem_cons_of_mem _ hs))
        (fun s hs => hchain s (List.mem_cons_of_mem _ hs))
        (fun s hs => hnonneg s (List.mem_cons_of_mem _ hs))
      obtain ⟨w, ws, hdfw⟩ := List.exists_cons_of_ne_nil hdf_ne
      have hdfSw : df' = addOffsets offs w :: ws.map (addOffsets offs) := by
        rw [hdfSdef, hdfw, List.map_cons]
      constructor
      · rw [hgo, List.chain'_append]
        refine ⟨hdfSchain, hih.1, ?_⟩
        intro x hx y hy
        rcases List.mem_getLast?_eq_getLast hx with ⟨hne', hxl⟩
        have hx_mem : x ∈ df' := hxl ▸ List.getLast_mem hne'
        calc x.col c ≤ colMax c df' := le_colMax c df' x hx_mem
          _ ≤ y.col c := hih.2 y hy
      · intro x hx
        rw [hgo] at hx
        rw [hdfSw] at hx
        simp only [List.cons_append, List.head?_cons, Option.mem_def,
          Option.some.injEq] at hx
        subst hx
        have hw_mem : w ∈ df := by rw [hdfw]; exact List.mem_cons_self _ _
        have := hdf_nonneg w hw_mem
        simp only [Row_col_addOffsets]
        omega

/--
C3: `concat` raises `ValueError` exactly when, after sorting the input
datasets by start time, some dataset's start time is less than or equal to the
previous dataset's end time; when accepted, every reset-eligible counter
column of the result is monotonically non-decreasing over the whole
concatenated run of records whenever that column is non-decreasing (and, being
a cumulative counter, non-negative) within each input.
-/
theorem C3_concat_overlap_and_monotonic (feds : List (List Row)) (addTag : Bool)
    (hne : ∀ fed ∈ feds, fed ≠ []) :
    ((∃ msg, concat feds addTag = Except.error msg) ↔
      ¬ List.Chain' (fun a b => endTime a < startTime b) (sortByStart feds)) ∧
    (∀ c : ResetCol,
      (∀ fed ∈ feds, List.Chain' (fun a b => a.col c ≤ b.col c) fed) →
      (∀ fed ∈ feds, ∀ r ∈ fed, 0 ≤ r.col c) →
      ∀ out, concat feds addTag = Except.ok out →
        List.Chain' (fun a b => a.col c ≤ b.col c) out) := by
  constructor
  · by_cases hcc : canConcat feds = true
    · constructor
      · intro ⟨msg, hmsg⟩
        rw [concat, if_pos hcc] at hmsg
        cases hmsg
      · intro hch
        exact absurd ((chainOk_iff_chain' (sortByStart feds)).mp hcc) hch
    · constructor
      · intro _
        intro hch
        exact hcc ((chainOk_iff_chain' (sortByStart feds)).mpr hch)
      · intro _
        refine ⟨"FEDFrame dates overlap, cannot concat.", ?_⟩
        rw [concat, if_neg hcc]
  · intro c hchain hnonneg out hout
    by_cases hcc : canConcat feds = true
    · rw [concat, if_pos hcc] at hout
      have hout' : out = concatGo addTag 0 (fun _ => 0) (sortByStart feds) := by
        cases hout; rfl
      subst hout'
      have hmem : ∀ seg ∈ sortByStart feds, seg ∈ feds :=
        fun seg hs => (mem_sortByStart feds seg).mp hs
      cases hsorted : sortByStart feds with
      | nil => simp [concatGo]
      | cons seg0 rest =>
          have hmem0 : seg0 ∈ feds := hmem seg0 (hsorted ▸ List.mem_cons_self _ _)
          have hmemr : ∀ s ∈ rest, s ∈ feds :=
            fun s hs => hmem s (hsorted ▸ List.mem_cons_of_mem _ hs)
          have hseg0_ne : seg0 ≠ [] := hne seg0 hmem0
          -- the first frame, possibly tagged
          have hgo : concatGo addTag 0 (fun _ => 0) (seg0 :: rest) =
              (if addTag then seg0.map (setConcatNum 0) else seg0) ++
                concatGo addTag 1
                  (fun c' => colMax c'
                    (if addTag then seg0.map (setConcatNum 0) else seg0)) rest := by
            simp [concatGo]
          set df := if addTag then seg0.map (setConcatNum 0) else seg0 with hdf_def
          have hdf_ne : df ≠ [] := by
            rw [hdf_def]; split
            · simpa using hseg0_ne
            · exact hseg0_ne
          have hdf_chain : List.Chain' (fun a b => a.col c ≤ b.col c) df := by
            rw [hdf_def]; split
            · rw [List.chain'_map]
              simpa [Row_col_setConcatNum] using hchain seg0 hmem0
            · exact hchain seg0 hmem0
          have hih := concatGo_chain c addTag rest 1 (fun c' => colMax c' df)
            (by omega)
            (fun s hs => hne s (hmemr s hs))
            (fun s hs => hchain s (hmemr s hs))
            (fun s hs => hnonneg s (hmemr s hs))
          rw [hgo, List.chain'_append]
          refine ⟨hdf_chain, hih.1, ?_⟩
          intro x hx y hy
          rcases List.mem_getLast?_eq_getLast hx with ⟨hne', hxl⟩
          have hx_mem : x ∈ df := hxl ▸ List.getLast_mem hne'
          calc x.col c ≤ colMax c df := le_colMax c df x hx_mem
            _ ≤ y.col c := hih.2 y hy
    · rw [concat, if_neg hcc] at hout
      cases hout

/-- Executable check that a reset-eligible column is non-decreasing along a
list of rows (used to evaluate `List.Chain'` hypotheses on concrete frames). -/
def chainColB (c : ResetCol) : List Row → Bool
  | a :: b :: rest => decide (a.col c ≤ b.col c) && chainColB c (b :: rest)
  | _ => true

theorem chainColB_iff_chain' (c : ResetCol) (l : List Row) :
    chainColB c l = true ↔ List.Chain' (fun a b => a.col c ≤ b.col c) l := by
  induction l with
  | nil => simp [chainColB]
  | cons a rest ih =>
      cases rest with
      | nil => simp [chainColB]
      | cons b rest' =>
          rw [List.chain'_cons, ← ih]
          simp [chainColB]

/-! ### C2: split followed by concat -/

/-- A row with equal values in all three counter columns, used for concrete
split/concat computations. -/
def mkCountRow (t : Nat) (v : Int) : Row := Row.mk t v v v "" 0

/-- Six records at seconds 0..5 with counters 1..6 (all three counter columns
non-decreasing). -/
def fedC2 : List Row := [mkCountRow 0 1, mkCountRow 1 2, mkCountRow 2 3,
  mkCountRow 3 4, mkCountRow 4 5, mkCountRow 5 6]

/-- Counter values produced by splitting `fedC2` at the two interior dates
2 and 4 and concatenating the pieces again. -/
def roundtripC2 : List (Nat × Int × Int × Int) :=
  match concat (split fedC2 [2, 4]) true with
  | Except.ok l => l.map stripTag
  | Except.error _ => []

/--
Counterexample to C2: for the dataset `fedC2` (non-decreasing counters 1..6 at
seconds 0..5) and the split dates `[2, 4]`, both strictly inside the time
range, `concat` after `split` does not reproduce the original counter values:
the records at seconds 4 and 5 come back with pellet counts 7 and 8 instead
of 5 and 6.  (The `split` loop updates its running offset to the maximum of
the already rebased slice, so from the third slice on the subtracted offset
no longer matches what `concat` adds back.)
-/
theorem C2_counterexample :
    startTime fedC2 < 2 ∧ 4 < endTime fedC2 ∧
    (∀ c : ResetCol, List.Chain' (fun a b => a.col c ≤ b.col c) fedC2) ∧
    roundtripC2 ≠ fedC2.map stripTag ∧
    roundtripC2 = [(0, 1, 1, 1), (1, 2, 2, 2), (2, 3, 3, 3), (3, 4, 4, 4),
      (4, 7, 7, 7), (5, 8, 8, 8)] := by
  refine ⟨by decide, by decide, ?_, by decide, by decide⟩
  intro c
  exact (chainColB_iff_chain' c fedC2).mp (by cases c <;> decide)

/--
C2 (amended): for every non-empty dataset whose reset counter columns are
non-decreasing and a *single* split date strictly inside the dataset's time
range, applying `split` and then `concat` to the resulting segments (ignoring
the `Concat_#` tag column) reproduces the original values of those counter
columns exactly at every timestamp.  (With two or more split dates the
round trip can fail, see `C2_counterexample`.)
-/
theorem C2_split_concat_roundtrip (fed : List Row) (d : Nat)
    (hne : fed ≠ [])
    (hsort : List.Pairwise (fun a b => a.t < b.t) fed)
    (hfut : ∀ r ∈ fed, r.t < futureDate)
    (hmono : ∀ c : ResetCol, List.Chain' (fun a b => a.col c ≤ b.col c) fed)
    (hd1 : startTime fed < d) (hd2 : d < endTime fed) :
    ∃ out, concat (split fed [d]) true = Except.ok out ∧
      out.map stripTag = fed.map stripTag := by
  classical
  set A := fed.filter (fun r => decide (r.t < d)) with hA
  set B := fed.filter (fun r => decide (d ≤ r.t)) with hB
  have hmemA : ∀ r ∈ A, r.t < d := by
    intro r hr
    have := (List.mem_filter.mp hr).2
    simpa using this
  have hmemB : ∀ r ∈ B, d ≤ r.t := by
    intro r hr
    have := (List.mem_filter.mp hr).2
    simpa using this
  -- A and B are non-empty
  obtain ⟨r0, fedrest, hfed0⟩ := List.exists_cons_of_ne_nil hne
  have hr0A : r0 ∈ A := by
    apply List.mem_filter.mpr
    refine ⟨by rw [hfed0]; exact List.mem_cons_self _ _, ?_⟩
    have : r0.t < d := by
      have := hd1
      rw [hfed0] at this
      exact this
    simpa using this
  have hAne : A ≠ [] := List.ne_nil_of_mem hr0A
  have hlast_mem : fed.getLast hne ∈ fed := List.getLast_mem hne
  have hlastB : fed.getLast hne ∈ B := by
    apply List.mem_filter.mpr
    refine ⟨hlast_mem, ?_⟩
    have : d ≤ (fed.getLast hne).t := by
      have := hd2
      rw [endTime_eq_getLast fed hne] at this
      omega
    simpa using this
  have hBne : B ≠ [] := List.ne_nil_of_mem hlastB
  -- the split produces exactly [A, B rebased by the column maxima of A]
  have hfilter1 : fed.filter (fun r => decide (oldDate ≤ r.t) && decide (r.t < d)) = A := by
    rw [hA]
    apply List.filter_congr
    intro r _
    simp [oldDate]
  have hfilter2 : fed.filter (fun r => decide (d ≤ r.t) && decide (r.t < futureDate)) = B := by
    rw [hB]
    apply List.filter_congr
    intro r hr
    simp [hfut r hr]
  have hAmap : A.map (subOffsets (fun _ => 0)) = A := by
    rw [List.map_congr_left (fun r _ => subOffsets_zero r)]
    exact List.map_id A
  have hsplit : split fed [d] = [A, B.map (subOffsets (fun c => colMax c A))] := by
    show splitGo fed (fun _ => 0) (brackets (splitHandleDates [d])) = _
    have hbr : brackets (splitHandleDates [d]) = [(oldDate, d), (d, futureDate)] := rfl
    rw [hbr]
    simp only [splitGo, hfilter1, hfilter2]
    rw [show A.isEmpty = false by simpa [List.isEmpty_iff] using hAne]
    rw [show B.isEmpty = false by simpa [List.isEmpty_iff] using hBne]
    simp only [Bool.false_eq_true, if_false, hAmap]
  -- concat accepts the two segments
  set M : ResetCol → Int := fun c => colMax c A with hM
  set B' := B.map (subOffsets M) with hB'
  have hstartB' : startTime B' = startTime B := startTime_map _ (Row_t_subOffsets M) B
  obtain ⟨b0, brest, hBcons⟩ := List.exists_cons_of_ne_nil hBne
  have hb0B : b0 ∈ B := by rw [hBcons]; exact List.mem_cons_self _ _
  have hstartB : d ≤ startTime B := by
    rw [hBcons, startTime_cons]
    exact hmemB b0 hb0B
  have hendA : endTime A < d := by
    rw [endTime_eq_getLast A hAne]
    exact hmemA _ (List.getLast_mem hAne)
  have hAB' : endTime A < startTime B' := by
    rw [hstartB']
    omega
  have hsort2 : sortByStart [A, B'] = [A, B'] := by
    simp only [sortByStart, List.foldr, insertByStart]
    rw [if_pos]
    rw [hstartB']
    rcases List.exists_cons_of_ne_nil hAne with ⟨a0, arest, hAcons⟩
    have : startTime A < d := by
      rw [hAcons, startTime_cons]
      exact hmemA a0 (by rw [hAcons]; exact List.mem_cons_self _ _)
    omega
  have hcc : canConcat [A, B'] = true := by
    unfold canConcat
    rw [hsort2]
    simp only [chainOk, Bool.and_eq_true, decide_eq_true_eq]
    exact ⟨hAB', trivial⟩
  refine ⟨concatGo true 0 (fun _ => 0) [A, B'], ?_, ?_⟩
  · rw [hsplit, concat, if_pos hcc, hsort2]
  · have hgo : concatGo true 0 (fun _ => 0) [A, B'] =
        A.map (setConcatNum 0) ++
          (B'.map (setConcatNum 1)).map
            (addOffsets (fun c => colMax c (A.map (setConcatNum 0)))) := by
      simp [concatGo]
    rw [hgo]
    have hcm : (fun c => colMax c (A.map (setConcatNum 0))) = M := by
      funext c
      rw [colMax_map_colPreserving c _ (fun r => Row_col_setConcatNum 0 r c) A]
    rw [hcm, hB']
    simp only [List.map_append, List.map_map]
    rw [show A.map (stripTag ∘ setConcatNum 0) = A.map stripTag from
      List.map_congr_left (fun r _ => stripTag_setConcatNum 0 r)]
    rw [show B.map (stripTag ∘ addOffsets M ∘ setConcatNum 1 ∘ subOffsets M) =
        B.map stripTag from
      List.map_congr_left (fun r _ => stripTag_roundtrip M 1 r)]
    rw [← List.map_append]
    rw [filter_lt_append_filter_ge fed d hsort]

/-- Two-record frame used in the witness of `C2_split_concat_roundtrip`. -/
def fedC2W : List Row := [mkCountRow 0 1, mkCountRow 10 2]

/-- Witness for C2 (amended): splitting `fedC2W` at second 5 and concatenating
reproduces the counter values. -/
theorem C2_witness :
    ∃ out, concat (split fedC2W [5]) true = Except.ok out ∧
      out.map stripTag = fedC2W.map stripTag := by
  apply C2_split_concat_roundtrip fedC2W 5 (by decide) (by decide) (by decide)
    ?_ (by decide) (by decide)
  intro c
  exact (chainColB_iff_chain' c fedC2W).mp (by cases c <;> decide)

/-- Concrete frames used in the witness of `C3_concat_overlap_and_monotonic`. -/
def rowW1 : Row := Row.mk 0 0 0 0 "" 0

/-- Second witness row. -/
def rowW2 : Row := Row.mk 10 1 1 1 "" 0

/-- Witness for C3: two one-record frames at times 0 and 10 concatenate
without error and the resulting pellet column is non-decreasing. -/
theorem C3_witness :
    (¬ ∃ msg, concat [[rowW1], [rowW2]] true = Except.error msg) ∧
    List.Chain' (fun a b => a.col ResetCol.pellet ≤ b.col ResetCol.pellet)
      [Row.mk 0 0 0 0 "" 0, Row.mk 10 1 1 1 "" 1] := by
  have h := C3_concat_overlap_and_monotonic [[rowW1], [rowW2]] true (by decide)
  constructor
  · intro hex
    have hch : List.Chain' (fun a b => endTime a < startTime b)
        (sortByStart [[rowW1], [rowW2]]) := by
      have : sortByStart [[rowW1], [rowW2]] = [[rowW1], [rowW2]] := by decide
      rw [this, List.chain'_cons]
      exact ⟨by decide, List.chain'_singleton _⟩
    exact (h.1.mp hex) hch
  · refine h.2 ResetCol.pellet ?_ ?_ _ ?_
    · intro fed hfed
      simp only [List.mem_cons, List.not_mem_nil, or_false] at hfed
      rcases hfed with rfl | rfl
      · exact List.chain'_singleton _
      · exact List.chain'_singleton _
    · decide
    · rfl

/-! ### The FEDFrame and the event classifier -/

/-- A FEDFrame: its records plus flags recording whether the optional
`Event` and `Concat_#` columns are present
(`'Event' in self.columns`, `'Concat_#' in self.columns`). -/
structure FedFrame where
  rows : List Row
  hasEvent : Bool
  hasConcat : Bool
deriving DecidableEq

/-- `self.loc[timestamp]` under the unique-timestamp precondition: the first
record with the given timestamp (`none` models the pandas `KeyError`). -/
def locRow (f : FedFrame) (ts : Nat) : Option Row :=
  f.rows.find? (fun r => decide (r.t = ts))

/-- `FEDFrame.event_type(timestamp)` with the default `poke_side=True`:
return the `Event` column value when that column exists; otherwise test which
of the three counters are zero, require the count of zeros to be exactly 2,
and return the name of the first zero counter in the order
pellet, left, right; raise otherwise.  (The unreachable fall-through of the
source, which would return `None`, is modelled as an error.) -/
def eventType (f : FedFrame) (ts : Nat) : Except String String :=
  match locRow f ts with
  | none => Except.error "KeyError"
  | some r =>
      if f.hasEvent then Except.ok r.event
      else
        let pellet := decide (r.pellet = 0)
        let left := decide (r.left = 0)
        let right := decide (r.right = 0)
        if (cond pellet 1 0) + (cond left 1 0) + (cond right 1 0) = 2 then
          if pellet then Except.ok "Pellet"
          else if left then Except.ok "Left"
          else if right then Except.ok "Right"
          else Except.error "None"
        else
          Except.error "Cannot determine event for timestamp with no Event column and multiple non-zero entries for pellets and pokes."

/-- Consecutive first differences of the pellet counter (`Series.diff()`),
keyed by the timestamp of the later record. -/
def pelletDiffs : List Row → List (Nat × Int)
  | a :: b :: rest => (b.t, b.pellet - a.pellet) :: pelletDiffs (b :: rest)
  | _ => []

/-- `FEDFrame._binary_pellets`: first-difference `Pellet_Count` and fill the
leading entry with `int(self.event_type(bp.index[0]) == 'Pellet')`; an empty
frame gives an empty series. -/
def binaryPellets (f : FedFrame) : Except String (List (Nat × Int)) :=
  match f.rows with
  | [] => Except.ok []
  | r0 :: rest =>
      (eventType f r0.t).map fun e =>
        (r0.t, if e = "Pellet" then 1 else 0) :: pelletDiffs (r0 :: rest)

/-- Last value of the cumulative pellet counter of a frame (0 if empty). -/
def lastPelletCount (f : FedFrame) : Int :=
  (f.rows.getLast?.map Row.pellet).getD 0

/-- First value of the cumulative pellet counter of a frame (0 if empty). -/
def firstPelletCount (f : FedFrame) : Int :=
  (f.rows.head?.map Row.pellet).getD 0

/-- A single-record frame with no `Event` column whose first (and only) event
incremented the pellet counter: `Pellet_Count = 1`, both poke counters `0`. -/
def fC1 : FedFrame := FedFrame.mk [Row.mk 0 1 0 0 "" 0] false false

/--
C1 (code evaluated at the failing input): on a dataset with no `Event` column
whose record at timestamp 0 has `Pellet_Count = 1`, `Left_Poke_Count = 0`,
`Right_Poke_Count = 0` — exactly two of the three counters are zero and the
unique non-zero counter is the pellet stream — `event_type` returns `'Left'`,
not `'Pellet'` as the claim (and the evident intent of the function) says:
the code returns the name of the first *zero* counter in the order
pellet, left, right, i.e. an inactive stream, never the incremented one.
-/
theorem C1_eventType_eval :
    eventType fC1 0 = Except.ok "Left" ∧ "Left" ≠ "Pellet" := by
  exact ⟨rfl, by decide⟩

/-- Telescoping sum of the consecutive pellet differences. -/
theorem pelletDiffs_sum :
    ∀ (a : Row) (l : List Row),
      ((pelletDiffs (a :: l)).map Prod.snd).sum =
        ((a :: l).getLast (List.cons_ne_nil a l)).pellet - a.pellet := by
  intro a l
  induction l generalizing a with
  | nil => simp [pelletDiffs]
  | cons b l ih =>
      have h1 : pelletDiffs (a :: b :: l) =
          (b.t, b.pellet - a.pellet) :: pelletDiffs (b :: l) := rfl
      rw [h1, List.map_cons, List.sum_cons, ih b]
      rw [List.getLast_cons (List.cons_ne_nil b l)]
      ring

/--
C6: for every non-empty dataset on which the binary pellet series is defined
(i.e. `event_type` succeeds at the first timestamp), the sum of the binary
pellet series equals the last cumulative `Pellet_Count` value minus the first
value used for the leading diff — the first cumulative value minus the filled
leading entry — so the first-differenced series with its leading entry filled
from `event_type` is consistent with the cumulative counter.
-/
theorem C6_binary_pellets_sum (f : FedFrame) (r0 : Row) (rest : List Row)
    (hrows : f.rows = r0 :: rest)
    (bp : List (Nat × Int)) (hbp : binaryPellets f = Except.ok bp) :
    (bp.map Prod.snd).sum =
      lastPelletCount f - (firstPelletCount f - (bp.map Prod.snd).headI) := by
  rw [binaryPellets, hrows] at hbp
  have hbp' : Except.map
      (fun e => (r0.t, if e = "Pellet" then 1 else 0) :: pelletDiffs (r0 :: rest))
      (eventType f r0.t) = Except.ok bp := hbp
  cases hev : eventType f r0.t with
  | error msg => rw [hev] at hbp'; cases hbp'
  | ok e =>
      rw [hev] at hbp'
      simp only [Except.map, Except.ok.injEq] at hbp'
      subst hbp'
      rw [List.map_cons, List.sum_cons, pelletDiffs_sum r0 rest]
      have hlast : lastPelletCount f = ((r0 :: rest).getLast (List.cons_ne_nil r0 rest)).pellet := by
        rw [lastPelletCount, hrows,
          List.getLast?_eq_getLast_of_ne_nil (List.cons_ne_nil r0 rest)]
        rfl
      have hfirst : firstPelletCount f = r0.pellet := by
        rw [firstPelletCount, hrows]
        rfl
      rw [hlast, hfirst]
      simp only [List.map_cons, List.headI]
      ring

/-- Frame used in the witness of `C6_binary_pellets_sum`: two pellet records
with an `Event` column. -/
def fC6W : FedFrame :=
  FedFrame.mk [Row.mk 0 1 0 0 "Pellet" 0, Row.mk 60 2 0 0 "Pellet" 0] true false

/-- Witness for C6 on `fC6W`: the binary series `[1, 1]` sums to
`2 - (1 - 1) = 2`. -/
theorem C6_witness :
    (([((0 : Nat), (1 : Int)), (60, 1)].map Prod.snd).sum =
      lastPelletCount fC6W -
        (firstPelletCount fC6W - (([((0 : Nat), (1 : Int)), (60, 1)].map Prod.snd).headI))) :=
  C6_binary_pellets_sum fC6W (Row.mk 0 1 0 0 "Pellet" 0) [Row.mk 60 2 0 0 "Pellet" 0]
    rfl [(0, 1), (60, 1)] rfl

/-! ### Interpellet intervals -/

/-- Minutes between two timestamps given in seconds:
`diff.dt.total_seconds() / 60`, as an exact rational
(built with `Rat.divInt`; see `minutesBetween_eq_div`). -/
def minutesBetween (t1 t2 : Nat) : ℚ := Rat.divInt ((t2 : Int) - (t1 : Int)) 60

theorem minutesBetween_eq_div (t1 t2 : Nat) :
    minutesBetween t1 t2 = ((((t2 : Int) - (t1 : Int)) : Int) : ℚ) / 60 := by
  rw [minutesBetween, Rat.divInt_eq_div]
  norm_num

/-- Timestamps of the pellet records of a binary pellet series: the entries
whose value is 1 (`bp = bp[bp == 1]`, then its index). -/
def pelletTimes (bp : List (Nat × Int)) : List Nat :=
  (bp.filter (fun p => decide (p.2 = 1))).map Prod.fst

/-- `bp.index.to_series().diff() / 60` after the leading entry: each pellet
timestamp paired with its distance in minutes to the previous one. -/
def ipiDiffs (prev : Nat) : List Nat → List (Nat × Option ℚ)
  | [] => []
  | t :: ts => (t, some (minutesBetween prev t)) :: ipiDiffs t ts

/-- The interpellet intervals over the pellet timestamps: the leading entry is
not available, later entries hold the distance to the previous pellet. -/
def ipiSeries : List Nat → List (Nat × Option ℚ)
  | [] => []
  | t0 :: rest => (t0, none) :: ipiDiffs t0 rest

/-- Value of the full-index interpellet series (before the concatenation fix)
at one timestamp: the diff value at pellet timestamps, not available elsewhere
(`interpellet = Series(nan, index=self.index); interpellet.loc[diff.index] = diff`). -/
def ipiAt (pts : List Nat) (t : Nat) : Option ℚ :=
  ((ipiSeries pts).lookup t).join

/-- `self['Concat_#']` at one timestamp (label alignment, which pandas only
performs here after checking the index has no duplicates). -/
def markerAt (f : FedFrame) (t : Nat) : Nat :=
  ((locRow f t).map Row.concatn).getD 0

/-- `interpellet.dropna()` of the pre-fix series, as
(`Concat_#` group, timestamp) pairs in index order: the pellet timestamps
carrying a defined interval, each with the concat group of its record. -/
def droppedPairs (f : FedFrame) (pts : List Nat) : List (Nat × Nat) :=
  f.rows.filterMap (fun r =>
    match ipiAt pts r.t with
    | some _ => some (markerAt f r.t, r.t)
    | none => none)

/-- Insertion of a natural number into an ascending list. -/
def insertNat (x : Nat) : List Nat → List Nat
  | [] => [x]
  | y :: ys => if x ≤ y then x :: y :: ys else y :: insertNat x ys

/-- Ascending insertion sort of a list of naturals. -/
def sortNat (l : List Nat) : List Nat := l.foldr insertNat []

/-- The distinct group keys of a list of keyed pairs, ascending
(pandas `groupby` sorts its group keys). -/
def groupKeys (pairs : List (Nat × Nat)) : List Nat :=
  sortNat (pairs.map Prod.fst).dedup

/-- `groupby(self['Concat_#']).first()` for one key: the first entry of that
group in index order. -/
def groupFirst (pairs : List (Nat × Nat)) (k : Nat) : Option Nat :=
  (pairs.find? (fun p => decide (p.1 = k))).map Prod.snd

/-- The timestamps `pos[1:]` whose interpellet entry is forced to
not-available: the first member of every concat group except the first group. -/
def boundaryPositions (pairs : List (Nat × Nat)) : List Nat :=
  ((groupKeys pairs).filterMap (groupFirst pairs)).tail

/-- `self.index.duplicated().any()` (`FEDFrame.check_duplicated_index`). -/
def hasDupIndex : List Nat → Bool
  | [] => false
  | x :: xs => xs.contains x || hasDupIndex xs

/-- `FEDFrame.interpellet_intervals` with `check_concat=True` and
`condense=False`, given the binary pellet series: align the
inter-pellet-timestamp differences (in minutes) onto the full index; when the
`Concat_#` column is present and the index has no duplicates, force the first
defined entry of every concat group after the first group to not-available. -/
def interpelletCore (f : FedFrame) (bp : List (Nat × Int)) : List (Nat × Option ℚ) :=
  let pts := pelletTimes bp
  let full := f.rows.map (fun r => (r.t, ipiAt pts r.t))
  if f.hasConcat && !(hasDupIndex (f.rows.map Row.t)) then
    let pos := boundaryPositions (droppedPairs f pts)
    full.map (fun p => if pos.contains p.1 then (p.1, none) else p)
  else
    full

/-- `FEDFrame.interpellet_intervals()` with the default arguments
(`check_concat=True`, `condense=False`). -/
def interpelletIntervals (f : FedFrame) : Except String (List (Nat × Option ℚ)) :=
  (binaryPellets f).map (fun bp => interpelletCore f bp)

/-- The `condense=True` branch: restrict the series to the pellet timestamps
(`interpellet.loc[bp.index]`) and drop not-available entries. -/
def condenseIpi (full : List (Nat × Option ℚ)) (pts : List Nat) : List (Nat × ℚ) :=
  (full.filter (fun p => pts.contains p.1)).filterMap
    (fun p => p.2.map (fun v => (p.1, v)))

/-- `FEDFrame.interpellet_intervals(condense=True)` (as called by `meals`). -/
def interpelletCondensed (f : FedFrame) : Except String (List (Nat × ℚ)) :=
  (binaryPellets f).map (fun bp => condenseIpi (interpelletCore f bp) (pelletTimes bp))

/-! ### Meals -/

/-- `(~within_interval).cumsum() + 1` over the condensed interval values:
running meal group ids, where a new group starts at every interval that is not
strictly below the intermeal threshold. -/
def mealIdsGo (gap : ℚ) (acc : Nat) : List ℚ → List Nat
  | [] => []
  | v :: vs =>
      let acc' := acc + (if v < gap then 0 else 1)
      acc' :: mealIdsGo gap acc' vs

/-- Meal group ids of the condensed interpellet interval values. -/
def mealIds (vals : List ℚ) (gap : ℚ) : List Nat := mealIdsGo gap 1 vals

/-- 1-based rank of a value in a list (`none` when absent): the value of the
`cumsum` of a run of ones at the position of the value. -/
def rankIn : List Nat → Nat → Option Nat
  | [], _ => none
  | k :: ks, v => if k = v then some 1 else (rankIn ks v).map (· + 1)

/-- The ascending group ids whose `value_counts()` meet the pellet minimum:
`above_min = value_counts().sort_index() >= pellet_minimum; above_min[above_min]`. -/
def validMealIds (ids : List Nat) (pmin : Nat) : List Nat :=
  (sortNat ids.dedup).filter (fun k => decide (pmin ≤ ids.count k))

/-- `replacements = above_min[above_min].cumsum().reindex(above_min.index)`
followed by `meals.map(replacements)`, applied to one id: ids of groups
smaller than `pellet_minimum` map to not-available (they are reindexed to NaN
and mapped through), the others to their 1-based rank (the cumulative sum)
among the qualifying group ids in ascending order. -/
def mealReplacement (ids : List Nat) (pmin : Nat) (v : Nat) : Option Nat :=
  rankIn (validMealIds ids pmin) v

/-- `FEDFrame.meals(pellet_minimum, intermeal_interval, condense=True)`:
meal labels over the condensed interpellet index. -/
def mealsCondensed (f : FedFrame) (pmin : Nat) (gap : ℚ) :
    Except String (List (Nat × Option Nat)) :=
  (interpelletCondensed f).map (fun cond =>
    let ids := mealIds (cond.map Prod.snd) gap
    List.zip (cond.map Prod.fst) (ids.map (mealReplacement ids pmin)))

/-- `FEDFrame.meals(..., condense=False)`: the condensed labels re-expanded
onto the full index (`meals.reindex(self.index)`). -/
def mealsFull (f : FedFrame) (pmin : Nat) (gap : ℚ) :
    Except String (List (Nat × Option Nat)) :=
  (mealsCondensed f pmin gap).map (fun out =>
    f.rows.map (fun r => (r.t, (out.lookup r.t).join)))

/-! ### Structure of the binary pellet series -/

theorem pelletDiffs_keys : ∀ (a : Row) (l : List Row),
    (pelletDiffs (a :: l)).map Prod.fst = l.map Row.t := by
  intro a l
  induction l generalizing a with
  | nil => rfl
  | cons b l ih => simpa [pelletDiffs] using ih b

theorem bp_keys (f : FedFrame) (bp : List (Nat × Int))
    (hbp : binaryPellets f = Except.ok bp) :
    bp.map Prod.fst = f.rows.map Row.t := by
  cases hrows : f.rows with
  | nil =>
      rw [binaryPellets, hrows] at hbp
      cases hbp
      rfl
  | cons r0 rest =>
      rw [binaryPellets, hrows] at hbp
      have hbp' : Except.map
          (fun e => (r0.t, if e = "Pellet" then 1 else 0) :: pelletDiffs (r0 :: rest))
          (eventType f r0.t) = Except.ok bp := hbp
      cases hev : eventType f r0.t with
      | error msg => rw [hev] at hbp'; cases hbp'
      | ok e =>
          rw [hev] at hbp'
          simp only [Except.map, Except.ok.injEq] at hbp'
          subst hbp'
          simp [pelletDiffs_keys]

theorem pelletTimes_sublist (f : FedFrame) (bp : List (Nat × Int))
    (hbp : binaryPellets f = Except.ok bp) :
    List.Sublist (pelletTimes bp) (f.rows.map Row.t) := by
  rw [← bp_keys f bp hbp, pelletTimes]
  exact (List.filter_sublist bp).map Prod.fst

theorem pelletTimes_pairwise (f : FedFrame) (bp : List (Nat × Int))
    (hsorted : List.Pairwise (fun a b => a.t < b.t) f.rows)
    (hbp : binaryPellets f = Except.ok bp) :
    List.Pairwise (· < ·) (pelletTimes bp) :=
  (List.pairwise_map.mpr hsorted).sublist (pelletTimes_sublist f bp hbp)

theorem nodup_of_pairwise_lt (l : List Nat) (h : List.Pairwise (· < ·) l) :
    l.Nodup :=
  h.imp Nat.ne_of_lt

/-! ### Duplicate index check -/

theorem hasDupIndex_eq_false_iff (l : List Nat) :
    hasDupIndex l = false ↔ l.Nodup := by
  induction l with
  | nil => simp [hasDupIndex]
  | cons x xs ih =>
      rw [List.nodup_cons, ← ih]
      simp [hasDupIndex]

/-! ### Lookups keyed by unique timestamps -/

theorem lookup_map_rows {β : Type} (g : Row → β) :
    ∀ (rows : List Row), (rows.map Row.t).Nodup → ∀ r ∈ rows,
      (rows.map (fun s => (s.t, g s))).lookup r.t = some (g r) := by
  intro rows
  induction rows with
  | nil => intro _ r hr; cases hr
  | cons s ss ih =>
      intro hnd r hr
      rw [List.map_cons, List.nodup_cons] at hnd
      rcases List.mem_cons.mp hr with rfl | hr'
      · simp [List.lookup]
      · have hne : (r.t == s.t) = false := by
          have : r.t ∈ ss.map Row.t := List.mem_map.mpr ⟨r, hr', rfl⟩
          simp only [beq_eq_false_iff_ne, ne_eq]
          intro hEq
          exact hnd.1 (hEq ▸ this)
        simp only [List.map_cons, List.lookup, hne]
        exact ih hnd.2 r hr'

theorem lookup_none_of_no_key {β : Type} (l : List (Nat × β)) (k : Nat)
    (h : ∀ p ∈ l, p.1 ≠ k) : l.lookup k = none := by
  induction l with
  | nil => rfl
  | cons p ps ih =>
      have hne : (k == p.1) = false := by
        simp only [beq_eq_false_iff_ne, ne_eq]
        exact fun hEq => h p (List.mem_cons_self _ _) hEq.symm
      cases p with
      | mk a b =>
          simp only [List.lookup, hne] at *
          exact ih (fun q hq => h q (List.mem_cons_of_mem _ hq))

theorem find?_t_self :
    ∀ (rows : List Row), (rows.map Row.t).Nodup → ∀ r ∈ rows,
      rows.find? (fun s => decide (s.t = r.t)) = some r := by
  intro rows
  induction rows with
  | nil => intro _ r hr; cases hr
  | cons s ss ih =>
      intro hnd r hr
      rw [List.map_cons, List.nodup_cons] at hnd
      rcases List.mem_cons.mp hr with rfl | hr'
      · simp [List.find?]
      · have hne : (decide (s.t = r.t)) = false := by
          have : r.t ∈ ss.map Row.t := List.mem_map.mpr ⟨r, hr', rfl⟩
          simp only [decide_eq_false_iff_not]
          intro hEq
          exact hnd.1 (hEq ▸ this)
        simp only [List.find?, hne]
        exact ih hnd.2 r hr'

theorem locRow_self (f : FedFrame) (hnd : (f.rows.map Row.t).Nodup) :
    ∀ r ∈ f.rows, locRow f r.t = some r :=
  find?_t_self f.rows hnd

theorem markerAt_self (f : FedFrame) (hnd : (f.rows.map Row.t).Nodup)
    (r : Row) (hr : r ∈ f.rows) : markerAt f r.t = r.concatn := by
  rw [markerAt, locRow_self f hnd r hr]
  rfl

theorem row_t_inj (rows : List Row) (hnd : (rows.map Row.t).Nodup)
    (r r' : Row) (hr : r ∈ rows) (hr' : r' ∈ rows) (ht : r.t = r'.t) : r = r' := by
  induction rows with
  | nil => cases hr
  | cons s ss ih =>
      rw [List.map_cons, List.nodup_cons] at hnd
      rcases List.mem_cons.mp hr with rfl | hmr
      · rcases List.mem_cons.mp hr' with rfl | hmr'
        · rfl
        · exact absurd (ht ▸ List.mem_map.mpr ⟨r', hmr', rfl⟩) hnd.1
      · rcases List.mem_cons.mp hr' with rfl | hmr'
        · exact absurd (ht ▸ List.mem_map.mpr ⟨r, hmr, rfl⟩) hnd.1
        · exact ih hnd.2 hmr hmr'

/-! ### Values of the interpellet series -/

theorem ipiDiffs_keys (prev : Nat) (l : List Nat) :
    (ipiDiffs prev l).map Prod.fst = l := by
  induction l generalizing prev with
  | nil => rfl
  | cons t ts ih => simpa [ipiDiffs] using ih t

theorem ipiSeries_keys (pts : List Nat) : (ipiSeries pts).map Prod.fst = pts := by
  cases pts with
  | nil => rfl
  | cons q0 qr => simpa [ipiSeries] using ipiDiffs_keys q0 qr

theorem ipiAt_head (q0 : Nat) (qr : List Nat) : ipiAt (q0 :: qr) q0 = none := by
  simp [ipiAt, ipiSeries, List.lookup]

theorem ipiDiffs_lookup_mem :
    ∀ (prev : Nat) (qr : List Nat) (q : Nat), q ∈ qr →
      ∃ v, (ipiDiffs prev qr).lookup q = some (some v) := by
  intro prev qr
  induction qr generalizing prev with
  | nil => intro q hq; cases hq
  | cons t ts ih =>
      intro q hq
      by_cases hqt : q = t
      · subst hqt
        exact ⟨minutesBetween prev q, by simp [ipiDiffs, List.lookup]⟩
      · rcases List.mem_cons.mp hq with rfl | hq'
        · exact absurd rfl hqt
        · obtain ⟨v, hv⟩ := ih t q hq'
          refine ⟨v, ?_⟩
          have hne : (q == t) = false := by simpa using hqt
          simpa [ipiDiffs, List.lookup, hne] using hv

theorem ipiAt_tail (q0 : Nat) (qr : List Nat) (q : Nat)
    (hq : q ∈ qr) (hne : q ≠ q0) :
    ∃ v, ipiAt (q0 :: qr) q = some v := by
  obtain ⟨v, hv⟩ := ipiDiffs_lookup_mem q0 qr q hq
  refine ⟨v, ?_⟩
  have h0 : (q == q0) = false := by simpa using hne
  simp [ipiAt, ipiSeries, List.lookup, h0, hv]

theorem ipiAt_not_mem (pts : List Nat) (q : Nat) (hq : q ∉ pts) :
    ipiAt pts q = none := by
  rw [ipiAt, lookup_none_of_no_key]
  · rfl
  · intro p hp hkey
    apply hq
    rw [← ipiSeries_keys pts]
    exact hkey ▸ List.mem_map.mpr ⟨p, hp, rfl⟩

theorem ipiAt_some_mem (pts : List Nat) (q : Nat) (v : ℚ)
    (h : ipiAt pts q = some v) : q ∈ pts := by
  by_contra hq
  rw [ipiAt_not_mem pts q hq] at h
  cases h

/-! ### C7 and C4: concrete frames -/

/-- Frame with a `Concat_#` column whose first segment contains a single
pellet record: segment 0 is just the record at second 0, segment 1 holds the
records at seconds 600 and 660. -/
def fC7 : FedFrame := FedFrame.mk
  [Row.mk 0 1 0 0 "Pellet" 0, Row.mk 600 2 0 0 "Pellet" 1,
   Row.mk 660 3 0 0 "Pellet" 1] true true

/--
Counterexample to C7: `fC7` carries the `Concat_#` column and has a unique
timestamp index, yet the interval reported at second 600 — the first pellet of
segment 1, a segment after the first — is 10 minutes (the distance to the last
pellet of segment 0, across the concatenation boundary), not not-available.
The code drops the first *group present among the defined entries* (`pos[1:]`),
and because segment 0's only pellet is the leading pellet (whose interval is
undefined), that first group is segment 1 itself.
-/
theorem C7_counterexample :
    fC7.hasConcat = true ∧
    hasDupIndex (fC7.rows.map Row.t) = false ∧
    interpelletIntervals fC7 =
      Except.ok [(0, none), (600, some 10), (660, some 1)] ∧
    List.lookup 600 [((0 : Nat), (none : Option ℚ)), (600, some 10), (660, some 1)] =
      some (some 10) :=
  ⟨rfl, rfl, rfl, rfl⟩

/-- Frame with five pellet records at seconds 0, 120, 600, 660, 720 and no
`Concat_#` column: with an intermeal threshold of 2 minutes the condensed
intervals are 2, 8, 1, 1 minutes, so the pellet at second 120 forms a
one-pellet run followed by a three-pellet run. -/
def fC4 : FedFrame := FedFrame.mk
  [Row.mk 0 1 0 0 "Pellet" 0, Row.mk 120 2 0 0 "Pellet" 0,
   Row.mk 600 3 0 0 "Pellet" 0, Row.mk 660 4 0 0 "Pellet" 0,
   Row.mk 720 5 0 0 "Pellet" 0] true false

/--
Counterexample to C4: in `meals(pellet_minimum=2, intermeal_interval=2)` on
`fC4`, the one-pellet run at second 120 is *not* merged into the following
valid run: its label is not-available (the replacement series has no `bfill`),
so not every pellet in the condensed sequence receives a meal label.
-/
theorem C4_counterexample :
    mealsCondensed fC4 2 2 =
      Except.ok [(120, none), (600, some 1), (660, some 1), (720, some 1)] ∧
    ((120 : Nat), (none : Option Nat)) ∈
      [((120 : Nat), (none : Option Nat)), (600, some 1), (660, some 1), (720, some 1)] :=
  ⟨rfl, by decide⟩

/-! ### Membership structure of the interpellet series -/

theorem interpelletCore_mem (f : FedFrame) (bp : List (Nat × Int))
    (p : Nat × Option ℚ) (hp : p ∈ interpelletCore f bp) :
    ∃ r ∈ f.rows, p.1 = r.t ∧
      (p.2 = none ∨ p.2 = ipiAt (pelletTimes bp) r.t) := by
  rw [interpelletCore] at hp
  by_cases hcond : (f.hasConcat && !(hasDupIndex (f.rows.map Row.t))) = true
  · rw [if_pos hcond] at hp
    rcases List.mem_map.mp hp with ⟨q, hq, hpq⟩
    rcases List.mem_map.mp hq with ⟨r, hr, hqr⟩
    refine ⟨r, hr, ?_⟩
    subst hqr
    by_cases hb : (boundaryPositions (droppedPairs f (pelletTimes bp))).contains r.t
    · rw [if_pos hb] at hpq
      subst hpq
      exact ⟨rfl, Or.inl rfl⟩
    · rw [if_neg hb] at hpq
      subst hpq
      exact ⟨rfl, Or.inr rfl⟩
  · rw [if_neg hcond] at hp
    rcases List.mem_map.mp hp with ⟨r, hr, hpr⟩
    subst hpr
    exact ⟨r, hr, rfl, Or.inr rfl⟩

theorem condenseIpi_key_mem (full : List (Nat × Option ℚ)) (pts : List Nat)
    (q : Nat) (v : ℚ) (h : (q, v) ∈ condenseIpi full pts) :
    ∃ p ∈ full, p.1 = q ∧ p.2 = some v := by
  rw [condenseIpi] at h
  rcases List.mem_filterMap.mp h with ⟨p, hp, hpv⟩
  have hp' := List.mem_filter.mp hp
  refine ⟨p, hp'.1, ?_⟩
  cases hv : p.2 with
  | none => rw [hv] at hpv; cases hpv
  | some w =>
      rw [hv] at hpv
      simp only [Option.map_some', Option.some.injEq] at hpv
      cases hpv
      exact ⟨rfl, rfl⟩

/-- `mealIdsGo` produces one id per interval value. -/
theorem mealIdsGo_length (gap : ℚ) :
    ∀ (vs : List ℚ) (acc : Nat), (mealIdsGo gap acc vs).length = vs.length := by
  intro vs
  induction vs with
  | nil => intro acc; rfl
  | cons v vs ih => intro acc; simpa [mealIdsGo] using ih _

/--
C10: for every dataset with unique (strictly increasing) timestamps and at
least one pellet record, `meals` never assigns a meal label to the dataset's
first pellet: its timestamp is absent from the condensed output (so a lookup
finds nothing), and in the `condense=False` re-expansion onto the full index
the value at that timestamp is not-available.
-/
theorem C10_meals_skip_first_pellet (f : FedFrame) (pmin : Nat) (gap : ℚ)
    (hsorted : List.Pairwise (fun a b => a.t < b.t) f.rows)
    (bp : List (Nat × Int)) (hbp : binaryPellets f = Except.ok bp)
    (q0 : Nat) (qr : List Nat) (hpts : pelletTimes bp = q0 :: qr) :
    ∃ out outF, mealsCondensed f pmin gap = Except.ok out ∧
      mealsFull f pmin gap = Except.ok outF ∧
      out.lookup q0 = none ∧ outF.lookup q0 = some none := by
  have hnd : (f.rows.map Row.t).Nodup :=
    nodup_of_pairwise_lt _ (List.pairwise_map.mpr hsorted)
  set cond := condenseIpi (interpelletCore f bp) (pelletTimes bp) with hcond
  set ids := mealIds (cond.map Prod.snd) gap with hids
  set out := List.zip (cond.map Prod.fst) (ids.map (mealReplacement ids pmin))
    with hout
  have hmc : mealsCondensed f pmin gap = Except.ok out := by
    rw [mealsCondensed, interpelletCondensed, hbp]
    rfl
  set outF := f.rows.map (fun r => (r.t, (out.lookup r.t).join)) with houtF
  have hmf : mealsFull f pmin gap = Except.ok outF := by
    rw [mealsFull, hmc]
    rfl
  -- no entry of the condensed series is keyed by the first pellet timestamp
  have hq0absent : ∀ p ∈ cond, p.1 ≠ q0 := by
    intro p hp hkey
    cases p with
    | mk q v =>
        simp only at hkey
        subst hkey
        obtain ⟨p', hp', hk2, hv2⟩ := condenseIpi_key_mem _ _ _ _ hp
        obtain ⟨r, hr, hpr, hval⟩ := interpelletCore_mem f bp p' hp'
        rcases hval with hnone | hipi
        · rw [hnone] at hv2; cases hv2
        · rw [hipi] at hv2
          rw [hpr] at hk2
          rw [hk2, hpts, ipiAt_head] at hv2
          cases hv2
  -- hence the condensed lookup fails
  have hlookup : out.lookup q0 = none := by
    apply lookup_none_of_no_key
    intro p hp
    cases p with
    | mk a b =>
        have hfst : a ∈ cond.map Prod.fst := (List.of_mem_zip hp).1
        rcases List.mem_map.mp hfst with ⟨centry, hc, hck⟩
        intro hEq
        exact hq0absent centry hc (by rw [hck]; exact hEq)
  refine ⟨out, outF, hmc, hmf, hlookup, ?_⟩
  -- the first pellet timestamp is a record timestamp
  have hq0row : ∃ r ∈ f.rows, r.t = q0 := by
    have : q0 ∈ f.rows.map Row.t := by
      have hmem : q0 ∈ pelletTimes bp := by rw [hpts]; exact List.mem_cons_self _ _
      exact (pelletTimes_sublist f bp hbp).mem hmem
    rcases List.mem_map.mp this with ⟨r, hr, hrt⟩
    exact ⟨r, hr, hrt⟩
  obtain ⟨r, hr, hrt⟩ := hq0row
  rw [houtF, ← hrt]
  refine Eq.trans (lookup_map_rows (fun s => (out.lookup s.t).join) f.rows hnd r hr) ?_
  show some ((out.lookup r.t).join) = some none
  rw [hrt, hlookup]
  rfl

/-- Frame used in the witness of `C10_meals_skip_first_pellet`: two pellet
records at seconds 0 and 60. -/
def fC10W : FedFrame :=
  FedFrame.mk [Row.mk 0 1 0 0 "Pellet" 0, Row.mk 60 2 0 0 "Pellet" 0] true false

/-- Witness for C10 on `fC10W`. -/
theorem C10_witness :
    ∃ out outF, mealsCondensed fC10W 1 1 = Except.ok out ∧
      mealsFull fC10W 1 1 = Except.ok outF ∧
      out.lookup 0 = none ∧ outF.lookup 0 = some none := by
  apply C10_meals_skip_first_pellet fC10W 1 1 ?_ [(0, 1), (60, 1)] rfl 0 [60] rfl
  exact List.Pairwise.cons (by decide) (List.pairwise_singleton _ _)

/-! ### Sorting naturals -/

theorem insertNat_perm (x : Nat) (l : List Nat) :
    List.Perm (insertNat x l) (x :: l) := by
  induction l with
  | nil => rfl
  | cons y ys ih =>
      by_cases h : x ≤ y
      · simp [insertNat, h]
      · simp only [insertNat, if_neg h]
        exact (ih.cons y).trans (List.Perm.swap x y ys)

theorem sortNat_perm (l : List Nat) : List.Perm (sortNat l) l := by
  induction l with
  | nil => rfl
  | cons x xs ih => exact (insertNat_perm x (sortNat xs)).trans (ih.cons x)

theorem mem_insertNat (x z : Nat) (l : List Nat) :
    z ∈ insertNat x l ↔ z = x ∨ z ∈ l := by
  rw [(insertNat_perm x l).mem_iff]
  simp

theorem insertNat_sorted (x : Nat) (l : List Nat)
    (hl : List.Pairwise (· ≤ ·) l) :
    List.Pairwise (· ≤ ·) (insertNat x l) := by
  induction l with
  | nil => simp [insertNat]
  | cons y ys ih =>
      rcases List.pairwise_cons.mp hl with ⟨hy, hys⟩
      by_cases h : x ≤ y
      · rw [insertNat, if_pos h]
        refine List.pairwise_cons.mpr ⟨?_, hl⟩
        intro z hz
        rcases List.mem_cons.mp hz with rfl | hz'
        · exact h
        · exact le_trans h (hy z hz')
      · rw [insertNat, if_neg h]
        refine List.pairwise_cons.mpr ⟨?_, ih hys⟩
        intro z hz
        rcases (mem_insertNat x z ys).mp hz with rfl | hz'
        · omega
        · exact hy z hz'

theorem sortNat_sorted (l : List Nat) : List.Pairwise (· ≤ ·) (sortNat l) := by
  induction l with
  | nil => exact List.Pairwise.nil
  | cons x xs ih => exact insertNat_sorted x (sortNat xs) ih

theorem sortNat_nodup (l : List Nat) (h : l.Nodup) : (sortNat l).Nodup :=
  (sortNat_perm l).nodup_iff.mpr h

theorem pairwise_lt_of_le_nodup (l : List Nat)
    (hle : List.Pairwise (· ≤ ·) l) (hnd : l.Nodup) :
    List.Pairwise (· < ·) l :=
  (hle.and hnd).imp (fun h => lt_of_le_of_ne h.1 h.2)

/-! ### Rank lookup -/

theorem rankIn_eq_none (l : List Nat) (v : Nat) :
    rankIn l v = none ↔ v ∉ l := by
  induction l with
  | nil => simp [rankIn]
  | cons k ks ih =>
      by_cases h : k = v
      · subst h; simp [rankIn]
      · rw [rankIn, if_neg h]
        cases hr : rankIn ks v with
        | none =>
            simp only [Option.map_none']
            rw [hr] at ih
            simp [List.mem_cons, ih.mp rfl]
            omega
        | some i =>
            simp only [Option.map_some']
            constructor
            · intro hx; cases hx
            · intro hv
              have : v ∈ ks := by
                by_contra hvk
                rw [ih.mpr hvk] at hr
                cases hr
              exact absurd (List.mem_cons_of_mem _ this) hv

theorem rankIn_some_bounds (l : List Nat) (v k : Nat)
    (h : rankIn l v = some k) : v ∈ l ∧ 1 ≤ k ∧ k ≤ l.length := by
  induction l generalizing k with
  | nil => cases h
  | cons x xs ih =>
      by_cases hx : x = v
      · subst hx
        rw [rankIn, if_pos rfl] at h
        cases h
        simp
      · rw [rankIn, if_neg hx] at h
        cases hr : rankIn xs v with
        | none => rw [hr] at h; cases h
        | some i =>
            rw [hr] at h
            simp only [Option.map_some', Option.some.injEq] at h
            subst h
            obtain ⟨hmem, h1, h2⟩ := ih i hr
            refine ⟨List.mem_cons_of_mem _ hmem, by omega, by simpa using h2⟩

theorem rankIn_surjective (l : List Nat) (hnd : l.Nodup) (k : Nat)
    (h1 : 1 ≤ k) (h2 : k ≤ l.length) :
    ∃ v ∈ l, rankIn l v = some k := by
  induction l generalizing k with
  | nil => simp at h2; omega
  | cons x xs ih =>
      rcases List.nodup_cons.mp hnd with ⟨hx, hxs⟩
      by_cases hk : k = 1
      · subst hk
        exact ⟨x, List.mem_cons_self _ _, by rw [rankIn, if_pos rfl]⟩
      · obtain ⟨v, hv, hrv⟩ := ih hxs (k - 1) (by omega) (by
          simp only [List.length_cons] at h2; omega)
        refine ⟨v, List.mem_cons_of_mem _ hv, ?_⟩
        have hxv : x ≠ v := fun hEq => hx (hEq ▸ hv)
        rw [rankIn, if_neg hxv, hrv]
        simp only [Option.map_some', Option.some.injEq]
        omega

theorem rankIn_mono (l : List Nat) (hlt : List.Pairwise (· < ·) l)
    (v v' a b : Nat) (hvv : v ≤ v')
    (ha : rankIn l v = some a) (hb : rankIn l v' = some b) : a ≤ b := by
  induction l generalizing a b with
  | nil => cases ha
  | cons x xs ih =>
      rcases List.pairwise_cons.mp hlt with ⟨hxall, hxs⟩
      by_cases hxv : x = v
      · subst hxv
        rw [rankIn, if_pos rfl] at ha
        cases ha
        exact (rankIn_some_bounds _ _ _ hb).2.1
      · rw [rankIn, if_neg hxv] at ha
        cases hra : rankIn xs v with
        | none => rw [hra] at ha; cases ha
        | some a0 =>
            rw [hra] at ha
            simp only [Option.map_some', Option.some.injEq] at ha
            subst ha
            by_cases hxv' : x = v'
            · exfalso
              subst hxv'
              have hvmem := (rankIn_some_bounds _ _ _ hra).1
              have := hxall v hvmem
              omega
            · rw [rankIn, if_neg hxv'] at hb
              cases hrb : rankIn xs v' with
              | none => rw [hrb] at hb; cases hb
              | some b0 =>
                  rw [hrb] at hb
                  simp only [Option.map_some', Option.some.injEq] at hb
                  subst hb
                  have := ih hxs a0 b0 hra hrb
                  omega

/-! ### Meal group ids -/

theorem mealIdsGo_ge_and_sorted (gap : ℚ) :
    ∀ (vs : List ℚ) (acc : Nat),
      (∀ x ∈ mealIdsGo gap acc vs, acc ≤ x) ∧
        List.Pairwise (· ≤ ·) (mealIdsGo gap acc vs) := by
  intro vs
  induction vs with
  | nil => intro acc; exact ⟨fun x hx => absurd hx (List.not_mem_nil x), List.Pairwise.nil⟩
  | cons v vs ih =>
      intro acc
      have hstep : acc ≤ acc + (if v < gap then 0 else 1) := by omega
      obtain ⟨hge, hsorted⟩ := ih (acc + (if v < gap then 0 else 1))
      constructor
      · intro x hx
        rcases List.mem_cons.mp hx with rfl | hx'
        · exact hstep
        · exact le_trans hstep (hge x hx')
      · exact List.pairwise_cons.mpr ⟨hge, hsorted⟩

theorem mealIds_sorted (vals : List ℚ) (gap : ℚ) :
    List.Pairwise (· ≤ ·) (mealIds vals gap) :=
  (mealIdsGo_ge_and_sorted gap vals 1).2

/-- Pairwise relation transferred along a partial map. -/
theorem pairwise_filterMap_rel {α β : Type} (R : α → α → Prop) (S : β → β → Prop)
    (g : α → Option β) :
    ∀ (l : List α), List.Pairwise R l →
      (∀ a b, R a b → ∀ x, g a = some x → ∀ y, g b = some y → S x y) →
      List.Pairwise S (l.filterMap g) := by
  intro l
  induction l with
  | nil => intro _ _; simp
  | cons a l ih =>
      intro hl hg
      rcases List.pairwise_cons.mp hl with ⟨ha, hl'⟩
      cases hga : g a with
      | none => simpa [List.filterMap_cons, hga] using ih hl' hg
      | some x =>
          rw [List.filterMap_cons, hga]
          refine List.pairwise_cons.mpr ⟨?_, ih hl' hg⟩
          intro y hy
          rcases List.mem_filterMap.mp hy with ⟨c, hc, hgc⟩
          exact hg a c (ha c hc) x hga y hgc

/-- Facts about the qualifying group ids. -/
theorem validMealIds_facts (ids : List Nat) (pmin : Nat) :
    List.Pairwise (· < ·) (validMealIds ids pmin) ∧
      (validMealIds ids pmin).Nodup ∧
      (∀ v, v ∈ validMealIds ids pmin ↔ v ∈ ids ∧ pmin ≤ ids.count v) := by
  have hsorted : List.Pairwise (· ≤ ·) (sortNat ids.dedup) := sortNat_sorted _
  have hnd : (sortNat ids.dedup).Nodup := sortNat_nodup _ (List.nodup_dedup ids)
  have hvs : List.Pairwise (· ≤ ·) (validMealIds ids pmin) :=
    hsorted.sublist (List.filter_sublist _)
  have hvn : (validMealIds ids pmin).Nodup :=
    hnd.sublist (List.filter_sublist _)
  refine ⟨pairwise_lt_of_le_nodup _ hvs hvn, hvn, ?_⟩
  intro v
  rw [validMealIds, List.mem_filter]
  rw [(sortNat_perm ids.dedup).mem_iff, List.mem_dedup]
  simp

/--
C4 (amended): in `meals(pellet_minimum, intermeal_interval)` every run of
pellets containing fewer than `pellet_minimum` members is *dropped* — its
entries receive a not-available label, they are not merged into the following
run — while the runs meeting the minimum are relabelled with the 1-based
compacted ranks: the labels that appear are exactly 1..K for K the number of
qualifying runs, in non-decreasing order along the condensed sequence.
-/
theorem C4_meals_small_runs_unlabeled (f : FedFrame) (pmin : Nat) (gap : ℚ)
    (cond : List (Nat × ℚ)) (hcond : interpelletCondensed f = Except.ok cond)
    (out : List (Nat × Option Nat)) (hout : mealsCondensed f pmin gap = Except.ok out) :
    out.map Prod.snd =
      (mealIds (cond.map Prod.snd) gap).map
        (mealReplacement (mealIds (cond.map Prod.snd) gap) pmin) ∧
    (∀ v ∈ mealIds (cond.map Prod.snd) gap,
      (mealIds (cond.map Prod.snd) gap).count v < pmin →
        mealReplacement (mealIds (cond.map Prod.snd) gap) pmin v = none) ∧
    (∀ k : Nat,
      some k ∈ out.map Prod.snd ↔
        1 ≤ k ∧ k ≤ (validMealIds (mealIds (cond.map Prod.snd) gap) pmin).length) ∧
    List.Chain' (fun a b => a ≤ b) ((out.map Prod.snd).filterMap id) := by
  set ids := mealIds (cond.map Prod.snd) gap with hids
  obtain ⟨hvlt, hvnd, hvmem⟩ := validMealIds_facts ids pmin
  have hmap : out.map Prod.snd = ids.map (mealReplacement ids pmin) := by
    rw [mealsCondensed, hcond] at hout
    simp only [Except.map, Except.ok.injEq] at hout
    subst hout
    apply List.map_snd_zip
    simp only [List.length_map, mealIds, mealIdsGo_length, le_refl]
  have hsmall : ∀ v ∈ ids, ids.count v < pmin → mealReplacement ids pmin v = none := by
    intro v _ hcount
    rw [mealReplacement, rankIn_eq_none]
    intro hv
    exact absurd ((hvmem v).mp hv).2 (by omega)
  refine ⟨hmap, hsmall, ?_, ?_⟩
  · intro k
    rw [hmap]
    constructor
    · intro hk
      rcases List.mem_map.mp hk with ⟨v, _, hrepl⟩
      have := rankIn_some_bounds _ _ _ hrepl
      exact ⟨this.2.1, this.2.2⟩
    · intro ⟨h1, h2⟩
      obtain ⟨v, hv, hrv⟩ := rankIn_surjective _ hvnd k h1 h2
      have hvids : v ∈ ids := ((hvmem v).mp hv).1
      exact List.mem_map.mpr ⟨v, hvids, hrv⟩
  · rw [hmap, List.filterMap_map]
    have hchain : List.Pairwise (fun a b => a ≤ b)
        (ids.filterMap (mealReplacement ids pmin)) := by
      apply pairwise_filterMap_rel (· ≤ ·) (· ≤ ·) _ ids (mealIds_sorted _ _)
      intro a b hab x hxa y hyb
      exact rankIn_mono _ hvlt a b x y hab hxa hyb
    exact hchain.chain'

/-- Witness for C4 (amended) on `fC4` (with `pellet_minimum = 2`,
`intermeal_interval = 2`): labels of the one-pellet run are not available,
the valid run gets rank 1. -/
theorem C4_witness :
    ([((120 : Nat), (none : Option Nat)), (600, some 1), (660, some 1),
        (720, some 1)].map Prod.snd).filterMap id |>.Chain' (fun a b => a ≤ b) :=
  (C4_meals_small_runs_unlabeled fC4 2 2
    [(120, 2), (600, 8), (660, 1), (720, 1)] rfl
    [(120, none), (600, some 1), (660, some 1), (720, some 1)] rfl).2.2.2

/-! ### C7: boundary exclusion of interpellet intervals -/

/-- With sorted timestamps and non-decreasing concat markers, markers are
monotone in time. -/
theorem marker_mono :
    ∀ (rows : List Row), List.Pairwise (fun a b => a.t < b.t) rows →
      List.Pairwise (fun a b => a.concatn ≤ b.concatn) rows →
      ∀ s ∈ rows, ∀ s' ∈ rows, s.t ≤ s'.t → s.concatn ≤ s'.concatn := by
  intro rows
  induction rows with
  | nil => intro _ _ s hs; cases hs
  | cons x xs ih =>
      intro hsorted hmark s hs s' hs' hts
      rcases List.pairwise_cons.mp hsorted with ⟨hxt, hsorted'⟩
      rcases List.pairwise_cons.mp hmark with ⟨hxm, hmark'⟩
      rcases List.mem_cons.mp hs with rfl | hs₂
      · rcases List.mem_cons.mp hs' with rfl | hs₂'
        · exact le_refl _
        · exact hxm s' hs₂'
      · rcases List.mem_cons.mp hs' with rfl | hs₂'
        · exact absurd hts (by have := hxt s hs₂; omega)
        · exact ih hsorted' hmark' s hs₂ s' hs₂' hts

theorem droppedPairs_mem_elim (f : FedFrame) (pts : List Nat)
    (hnd : (f.rows.map Row.t).Nodup) (p : Nat × Nat)
    (hp : p ∈ droppedPairs f pts) :
    ∃ s ∈ f.rows, p = (s.concatn, s.t) ∧ ∃ v, ipiAt pts s.t = some v := by
  rcases List.mem_filterMap.mp hp with ⟨s, hs, hmatch⟩
  cases hip : ipiAt pts s.t with
  | none => rw [hip] at hmatch; cases hmatch
  | some v =>
      rw [hip] at hmatch
      simp only [Option.some.injEq] at hmatch
      refine ⟨s, hs, ?_, v, hip⟩
      rw [← hmatch, markerAt_self f hnd s hs]

theorem droppedPairs_mem_intro (f : FedFrame) (pts : List Nat)
    (hnd : (f.rows.map Row.t).Nodup) (s : Row) (hs : s ∈ f.rows)
    (v : ℚ) (hv : ipiAt pts s.t = some v) :
    (s.concatn, s.t) ∈ droppedPairs f pts := by
  apply List.mem_filterMap.mpr
  refine ⟨s, hs, ?_⟩
  rw [hv, markerAt_self f hnd s hs]

theorem droppedPairs_snd_pairwise (f : FedFrame) (pts : List Nat)
    (hsorted : List.Pairwise (fun a b => a.t < b.t) f.rows) :
    List.Pairwise (fun p q => p.2 < q.2) (droppedPairs f pts) := by
  apply pairwise_filterMap_rel (fun a b => a.t < b.t) _ _ _ hsorted
  intro a b hab x hxa y hyb
  have hx2 : x.2 = a.t := by
    cases hia : ipiAt pts a.t with
    | none => rw [hia] at hxa; cases hxa
    | some v => rw [hia] at hxa; cases hxa; rfl
  have hy2 : y.2 = b.t := by
    cases hib : ipiAt pts b.t with
    | none => rw [hib] at hyb; cases hyb
    | some v => rw [hib] at hyb; cases hyb; rfl
  rw [hx2, hy2]
  exact hab

/-- `find?` on a list that is pairwise-ordered on a component returns,
among the matching entries, one that is no later than any other match. -/
theorem find?_first_of_pairwise {α : Type} (S : α → α → Prop) (p : α → Bool) :
    ∀ (l : List α), List.Pairwise S l → ∀ y, l.find? p = some y →
      ∀ x ∈ l, p x = true → y = x ∨ S y x := by
  intro l
  induction l with
  | nil => intro _ y hy; cases hy
  | cons e es ih =>
      intro hl y hy x hx hpx
      rcases List.pairwise_cons.mp hl with ⟨he, hes⟩
      by_cases hpe : p e = true
      · rw [List.find?_cons_of_pos _ hpe] at hy
        cases hy
        rcases List.mem_cons.mp hx with rfl | hx'
        · exact Or.inl rfl
        · exact Or.inr (he x hx')
      · rw [List.find?_cons_of_neg _ (by simpa using hpe)] at hy
        rcases List.mem_cons.mp hx with rfl | hx'
        · exact absurd hpx hpe
        · exact ih hes y hy x hx' hpx

/--
C7 (amended): for a dataset carrying the `Concat_#` column, with strictly
increasing timestamps and non-decreasing concat markers, *whose first segment
contains at least two pellet records*, `interpellet_intervals` reports
not-available at the first pellet of every segment after the first: no
reported interval spans a concatenation boundary.  (Without the condition on
the first segment the property fails, see `C7_counterexample`: the code drops
the first marker group present among the defined entries, which need not be
the dataset's first segment.)
-/
theorem C7_interpellet_concat_boundary (f : FedFrame)
    (hconc : f.hasConcat = true)
    (hsorted : List.Pairwise (fun a b => a.t < b.t) f.rows)
    (hmark : List.Pairwise (fun a b => a.concatn ≤ b.concatn) f.rows)
    (bp : List (Nat × Int)) (hbp : binaryPellets f = Except.ok bp)
    (r0 : Row) (rest : List Row) (hrows : f.rows = r0 :: rest)
    (htwo : 2 ≤ ((pelletTimes bp).filter
        (fun q => decide (markerAt f q = r0.concatn))).length)
    (r : Row) (hr : r ∈ f.rows) (hrp : r.t ∈ pelletTimes bp)
    (hm : r.concatn ≠ r0.concatn)
    (hfirst : ∀ s ∈ f.rows, s.t ∈ pelletTimes bp → s.concatn = r.concatn →
      r.t ≤ s.t) :
    ∃ out, interpelletIntervals f = Except.ok out ∧
      out.lookup r.t = some none := by
  classical
  have hnd : (f.rows.map Row.t).Nodup :=
    nodup_of_pairwise_lt _ (List.pairwise_map.mpr hsorted)
  set pts := pelletTimes bp with hptsdef
  have hpts_pw : List.Pairwise (· < ·) pts := pelletTimes_pairwise f bp hsorted hbp
  have hpts_nd : pts.Nodup := nodup_of_pairwise_lt _ hpts_pw
  have hpts_row : ∀ q ∈ pts, ∃ s ∈ f.rows, s.t = q := by
    intro q hq
    have : q ∈ f.rows.map Row.t := (pelletTimes_sublist f bp hbp).mem hq
    rcases List.mem_map.mp this with ⟨s, hs, hst⟩
    exact ⟨s, hs, hst⟩
  have hmono := marker_mono f.rows hsorted hmark
  have hm0min : ∀ s ∈ f.rows, r0.concatn ≤ s.concatn := by
    intro s hs
    rcases List.mem_cons.mp (hrows ▸ hs) with rfl | hs'
    · exact le_refl _
    · exact (List.pairwise_cons.mp (hrows ▸ hmark)).1 s hs'
  -- the filtered list of first-segment pellets has two distinct members
  set seg0pellets := pts.filter (fun q => decide (markerAt f q = r0.concatn))
    with hseg0
  have hseg0_nd : seg0pellets.Nodup := hpts_nd.filter _
  obtain ⟨qa, tail0, hc⟩ : ∃ qa tail0, seg0pellets = qa :: tail0 :=
    List.exists_cons_of_ne_nil (by
      intro h
      rw [h] at htwo
      simp at htwo)
  obtain ⟨qb, tl, hc2⟩ : ∃ qb tl, tail0 = qb :: tl :=
    List.exists_cons_of_ne_nil (by
      intro h
      rw [hc, h] at htwo
      simp at htwo)
  have hseg0c : seg0pellets = qa :: qb :: tl := by rw [hc, hc2]
  have hqa : qa ∈ seg0pellets := by rw [hseg0c]; exact List.mem_cons_self _ _
  have hqb : qb ∈ seg0pellets := by
    rw [hseg0c]; exact List.mem_cons_of_mem _ (List.mem_cons_self _ _)
  have hqab : qa ≠ qb := by
    rw [hseg0c] at hseg0_nd
    rcases List.nodup_cons.mp hseg0_nd with ⟨hna, _⟩
    exact fun hEq => hna (hEq ▸ List.mem_cons_self _ _)
  have hseg0_mem : ∀ q ∈ seg0pellets, q ∈ pts ∧ markerAt f q = r0.concatn := by
    intro q hq
    have := List.mem_filter.mp hq
    exact ⟨this.1, by simpa using this.2⟩
  -- the first pellet timestamp
  obtain ⟨q0, qrest, hptsc⟩ : ∃ q0 qrest, pts = q0 :: qrest := by
    cases hc : pts with
    | nil =>
        exfalso
        have := (hseg0_mem qa hqa).1
        rw [hc] at this
        cases this
    | cons q0 qrest => exact ⟨q0, qrest, rfl⟩
  have hq0min : ∀ q ∈ pts, q0 ≤ q := by
    intro q hq
    rw [hptsc] at hq hpts_pw
    rcases List.pairwise_cons.mp hpts_pw with ⟨h0, _⟩
    rcases List.mem_cons.mp hq with rfl | hq'
    · exact le_refl _
    · exact le_of_lt (h0 q hq')
  -- a first-segment pellet other than the first pellet
  obtain ⟨qx, hqx_mem, hqx_ne⟩ : ∃ qx ∈ seg0pellets, qx ≠ q0 := by
    by_cases hqa0 : qa = q0
    · exact ⟨qb, hqb, fun hEq => hqab (hqa0 ▸ hEq ▸ rfl)⟩
    · exact ⟨qa, hqa, hqa0⟩
  obtain ⟨hqx_pts, hqx_marker⟩ := hseg0_mem qx hqx_mem
  obtain ⟨sx, hsx, hsxt⟩ := hpts_row qx hqx_pts
  have hsx_marker : sx.concatn = r0.concatn := by
    rw [← hqx_marker, ← hsxt, markerAt_self f hnd sx hsx]
  -- the record at the first pellet lies in the first segment
  obtain ⟨s0, hs0, hs0t⟩ := hpts_row q0 (by rw [hptsc]; exact List.mem_cons_self _ _)
  have hs0_marker : s0.concatn = r0.concatn := by
    have h1 : r0.concatn ≤ s0.concatn := hm0min s0 hs0
    have h2 : s0.concatn ≤ sx.concatn := by
      apply hmono s0 hs0 sx hsx
      rw [hs0t, hsxt]
      exact hq0min qx hqx_pts
    omega
  -- the target row is not the first pellet
  have hrne : r.t ≠ q0 := by
    intro hEq
    apply hm
    have : r = s0 := row_t_inj f.rows hnd r s0 hr hs0 (by rw [hEq, hs0t])
    rw [this, hs0_marker]
  -- defined intervals
  have hr_tail : r.t ∈ qrest := by
    rw [hptsc] at hrp
    rcases List.mem_cons.mp hrp with hEq | h
    · exact absurd hEq hrne
    · exact h
  obtain ⟨vr, hvr⟩ := ipiAt_tail q0 qrest r.t hr_tail (by exact hrne)
  have hvr' : ipiAt pts r.t = some vr := by rw [hptsc]; exact hvr
  have hqx_tail : qx ∈ qrest := by
    rw [hptsc] at hqx_pts
    rcases List.mem_cons.mp hqx_pts with hEq | h
    · exact absurd hEq hqx_ne
    · exact h
  obtain ⟨vx, hvx⟩ := ipiAt_tail q0 qrest qx hqx_tail hqx_ne
  have hvx' : ipiAt pts qx = some vx := by rw [hptsc]; exact hvx
  -- membership in the dropped pairs
  set dp := droppedPairs f pts with hdp
  have hrdp : (r.concatn, r.t) ∈ dp :=
    droppedPairs_mem_intro f pts hnd r hr vr hvr'
  have hxdp : (r0.concatn, qx) ∈ dp := by
    have := droppedPairs_mem_intro f pts hnd sx hsx vx (by rw [hsxt]; exact hvx')
    rw [hsx_marker, hsxt] at this
    exact this
  have hdp_pw : List.Pairwise (fun p q => p.2 < q.2) dp :=
    droppedPairs_snd_pairwise f pts hsorted
  -- the sorted group keys: the head is the first segment's marker
  set keys := groupKeys dp with hkeys
  have hkeys_sorted : List.Pairwise (· ≤ ·) keys := sortNat_sorted _
  have hkeys_mem : ∀ k, k ∈ keys ↔ k ∈ dp.map Prod.fst := by
    intro k
    rw [hkeys, groupKeys, (sortNat_perm _).mem_iff, List.mem_dedup]
  have hkeys_min : ∀ k ∈ keys, r0.concatn ≤ k := by
    intro k hk
    rcases List.mem_map.mp ((hkeys_mem k).mp hk) with ⟨p, hp, hpk⟩
    obtain ⟨s, hs, hps, _⟩ := droppedPairs_mem_elim f pts hnd p hp
    rw [← hpk, hps]
    exact hm0min s hs
  have hm0keys : r0.concatn ∈ keys :=
    (hkeys_mem _).mpr (List.mem_map.mpr ⟨(r0.concatn, qx), hxdp, rfl⟩)
  obtain ⟨k0, krest, hkeysc⟩ : ∃ k0 krest, keys = k0 :: krest := by
    cases hc : keys with
    | nil => rw [hc] at hm0keys; cases hm0keys
    | cons k0 krest => exact ⟨k0, krest, rfl⟩
  have hk0 : k0 = r0.concatn := by
    have h1 : r0.concatn ≤ k0 := hkeys_min k0 (by rw [hkeysc]; exact List.mem_cons_self _ _)
    rw [hkeysc] at hm0keys hkeys_sorted
    rcases List.pairwise_cons.mp hkeys_sorted with ⟨hall, _⟩
    rcases List.mem_cons.mp hm0keys with hEq | hmem
    · omega
    · have := hall _ hmem
      omega
  have hrkeys : r.concatn ∈ krest := by
    have : r.concatn ∈ keys :=
      (hkeys_mem _).mpr (List.mem_map.mpr ⟨(r.concatn, r.t), hrdp, rfl⟩)
    rw [hkeysc] at this
    rcases List.mem_cons.mp this with hEq | hmem
    · rw [hk0] at hEq; exact absurd hEq hm
    · exact hmem
  -- the group-first of the target segment is the target timestamp
  have hgf : groupFirst dp r.concatn = some r.t := by
    rw [groupFirst]
    cases hfind : dp.find? (fun p => decide (p.1 = r.concatn)) with
    | none =>
        exfalso
        have := List.find?_eq_none.mp hfind (r.concatn, r.t) hrdp
        simp at this
    | some y =>
        have hy_pred : y.1 = r.concatn := by
          have := List.find?_some hfind
          simpa using this
        have hy_mem : y ∈ dp := List.mem_of_find?_eq_some hfind
        obtain ⟨sy, hsy, hysy, vy, hivy⟩ := droppedPairs_mem_elim f pts hnd y hy_mem
        have hsy_pts : sy.t ∈ pts := ipiAt_some_mem pts sy.t vy hivy
        have hsy_marker : sy.concatn = r.concatn := by
          rw [hysy] at hy_pred
          exact hy_pred
        have h_le : r.t ≤ sy.t := hfirst sy hsy hsy_pts hsy_marker
        have := find?_first_of_pairwise _ _ dp hdp_pw y hfind
          (r.concatn, r.t) hrdp (by simp)
        rcases this with hEq | hlt
        · rw [hEq]
          rfl
        · exfalso
          rw [hysy] at hlt
          simp only at hlt
          omega
  -- the target timestamp is a forced boundary position
  have hrpos : r.t ∈ boundaryPositions dp := by
    rw [boundaryPositions, ← hkeys, hkeysc]
    have hk0some : ∃ g0, groupFirst dp k0 = some g0 := by
      rw [hk0]
      cases hfind : dp.find? (fun p => decide (p.1 = r0.concatn)) with
      | none =>
          exfalso
          have := List.find?_eq_none.mp hfind (r0.concatn, qx) hxdp
          simp at this
      | some y => exact ⟨y.2, by rw [groupFirst, hfind]; rfl⟩
    obtain ⟨g0, hg0⟩ := hk0some
    rw [List.filterMap_cons, hg0]
    simp only [List.tail_cons]
    exact List.mem_filterMap.mpr ⟨r.concatn, hrkeys, hgf⟩
  -- assemble the output
  refine ⟨interpelletCore f bp, by rw [interpelletIntervals, hbp]; rfl, ?_⟩
  have hcond : (f.hasConcat && !(hasDupIndex (f.rows.map Row.t))) = true := by
    rw [hconc, (hasDupIndex_eq_false_iff _).mpr hnd]
    rfl
  rw [interpelletCore]
  rw [if_pos hcond]
  rw [List.map_map]
  set pos := boundaryPositions (droppedPairs f pts) with hpos
  have hcongr : f.rows.map
      ((fun p => if pos.contains p.1 then (p.1, (none : Option ℚ)) else p) ∘
        (fun s => (s.t, ipiAt pts s.t))) =
      f.rows.map (fun s => (s.t,
        if pos.contains s.t then (none : Option ℚ) else ipiAt pts s.t)) := by
    apply List.map_congr_left
    intro s _
    by_cases hc : pos.contains s.t
    · have hmem : s.t ∈ pos := by simpa using hc
      simp [Function.comp, hmem]
    · have hmem : s.t ∉ pos := by simpa using hc
      simp [Function.comp, hmem]
  rw [hcongr]
  rw [lookup_map_rows (fun s => if pos.contains s.t then (none : Option ℚ)
    else ipiAt pts s.t) f.rows hnd r hr]
  have : pos.contains r.t = true := by
    rw [hpos, ← hdp]
    simpa using hrpos
  rw [this]
  rfl

/-- Frame used in the witness of `C7_interpellet_concat_boundary`: segment 0
holds two pellet records (seconds 0 and 60), segment 1 holds two more
(seconds 600 and 660). -/
def fC7W : FedFrame := FedFrame.mk
  [Row.mk 0 1 0 0 "Pellet" 0, Row.mk 60 2 0 0 "Pellet" 0,
   Row.mk 600 3 0 0 "Pellet" 1, Row.mk 660 4 0 0 "Pellet" 1] true true

/-- Witness for C7 (amended) on `fC7W`: the interval at second 600 — the
first pellet of segment 1 — is reported as not-available. -/
theorem C7_witness :
    ∃ out, interpelletIntervals fC7W = Except.ok out ∧
      out.lookup 600 = some none := by
  have hrow : Row.mk 600 3 0 0 "Pellet" 1 ∈ fC7W.rows := by decide
  have := C7_interpellet_concat_boundary fC7W rfl
    (by
      refine List.Pairwise.cons ?_ (List.Pairwise.cons ?_ (List.Pairwise.cons ?_ ?_))
      all_goals first
        | (intro x hx
           fin_cases hx <;> decide)
        | exact List.pairwise_singleton _ _)
    (by
      refine List.Pairwise.cons ?_ (List.Pairwise.cons ?_ (List.Pairwise.cons ?_ ?_))
      all_goals first
        | (intro x hx
           fin_cases hx <;> decide)
        | exact List.pairwise_singleton _ _)
    [(0, 1), (60, 1), (600, 1), (660, 1)] rfl
    (Row.mk 0 1 0 0 "Pellet" 0) (fC7W.rows.tail) rfl
    (by decide)
    (Row.mk 600 3 0 0 "Pellet" 1) hrow (by decide) (by decide)
    (by
      intro s hs hspts hsm
      fin_cases hs <;> simp_all <;> decide)
  exact this

/-! ### Column-name fixing (difflib.SequenceMatcher) -/

/-- Length of the common prefix of two character lists. -/
def commonPrefixLen : List Char → List Char → Nat
  | x :: xs, y :: ys => if x = y then commonPrefixLen xs ys + 1 else 0
  | _, _ => 0

/-- `SequenceMatcher.find_longest_match` over whole strings (no junk — the
inputs are short column names, so difflib's autojunk never applies): the
longest matching block `(i, j, k)`, ties broken by the earliest start in `a`,
then the earliest start in `b`. -/
def findLongestMatch (a b : List Char) : Nat × Nat × Nat :=
  ((List.range a.length).map (fun i =>
      (List.range b.length).map (fun j =>
        (i, j, commonPrefixLen (a.drop i) (b.drop j)))) |>.join).foldl
    (fun best c => if best.2.2 < c.2.2 then c else best) (0, 0, 0)

/-- Total size of the matching blocks (`sum(size for block in
get_matching_blocks())`), by the Ratcliff–Obershelp recursion around the
longest match.  `fuel` bounds the recursion depth; `a.length + b.length + 1`
always suffices because every recursive call strictly shrinks the strings. -/
def matchTotal : Nat → List Char → List Char → Nat
  | 0, _, _ => 0
  | fuel + 1, a, b =>
      let m := findLongestMatch a b
      if m.2.2 = 0 then 0
      else m.2.2 + matchTotal fuel (a.take m.1) (b.take m.2.1) +
        matchTotal fuel (a.drop (m.1 + m.2.2)) (b.drop (m.2.1 + m.2.2))

/-- `SequenceMatcher(a=col, b=fix).ratio() > 0.85`.  Since
`ratio = 2*M/(len(a)+len(b))`, this is `40*M > 17*(len(a)+len(b))` exactly:
no value of `2*M/(la+lb)` with these small denominators lies between the
double nearest to 0.85 and the rational 17/20, so the float comparison of the
source and this exact comparison agree. -/
def likenessGT85 (a b : List Char) : Bool :=
  decide (17 * (a.length + b.length) <
    40 * matchTotal (a.length + b.length + 1) a b)

/-- The canonical column names (`FIXED_COLS` of `fedframe.py`). -/
def FIXED_COLS : List String :=
  ["Device_Number", "Battery_Voltage", "Motor_Turns", "Session_Type", "Event",
   "Active_Poke", "Left_Poke_Count", "Right_Poke_Count", "Pellet_Count",
   "Retrieval_Time"]

/-- The required columns (`NEEDED_COLS` of `fedframe.py`). -/
def NEEDED_COLS : List String :=
  ["Pellet_Count", "Left_Poke_Count", "Right_Poke_Count"]

/-- Inner loop of `fix_column_names` for one input column: walk the canonical
names in order; at the first one with likeness above 0.85 rename the column to
it and `break`; each canonical name tried *before* the break appends the
column to `foreign_columns` — the `append` sits inside the inner loop in the
source, before the break test of the next iteration. -/
def fixOne (col : String) : List String → String × List String
  | [] => (col, [])
  | fix :: rest =>
      if likenessGT85 col.toList fix.toList then (fix, [])
      else
        let p := fixOne col rest
        (p.1, col :: p.2)

/-- `FEDFrame.fix_column_names`: the final column names, the accumulated
`foreign_columns`, and the `missing_columns` (needed columns absent after
renaming).  The iteration order over `self.columns` is the original column
order (the loop iterates the index captured at loop start). -/
def fixColumnNames (cols : List String) :
    List String × List String × List String :=
  let pairs := cols.map (fun c => fixOne c FIXED_COLS)
  let newCols := pairs.map Prod.fst
  let foreign := (pairs.map Prod.snd).join
  let missing := NEEDED_COLS.filter (fun c => !(newCols.contains c))
  (newCols, foreign, missing)

set_option maxRecDepth 100000 in
/--
C5 (code evaluated at the failing input): for the single input column
`Pellet_Count` — which matches the canonical name `Pellet_Count` with
likeness 1 and is therefore renamed (kept) as a canonical column —
`fix_column_names` nevertheless records it in `foreign_columns`, eight times:
once for each canonical name tried before the match, because the
`foreign_columns.append(col)` of the source sits inside the inner loop.  The
claim says a renamed column never appears in `foreign_columns` and that each
foreign column is recorded once.
-/
theorem C5_fixColumnNames_eval :
    fixColumnNames ["Pellet_Count"] =
      (["Pellet_Count"], List.replicate 8 "Pellet_Count",
        ["Left_Poke_Count", "Right_Poke_Count"]) ∧
    likenessGT85 "Pellet_Count".toList "Pellet_Count".toList = true ∧
    "Pellet_Count" ∈ List.replicate 8 "Pellet_Count" := by
  exact ⟨rfl, rfl, by decide⟩

/-! ### Timestamp deduplication: the offset policy -/

/-- One pass of the `offset` deduplication loop:
`self.index = np.where(self.index.duplicated(), self.index + dt, self.index)`.
`index.duplicated()` marks every entry equal to some *earlier* entry of the
pre-pass index; `seen` accumulates the values already scanned. -/
def offsetPassGo (dt : Nat) (seen : List Nat) : List Nat → List Nat
  | [] => []
  | x :: xs =>
      (if seen.contains x then x + dt else x) :: offsetPassGo dt (x :: seen) xs

/-- One full pass of the `while self.check_duplicated_index()` loop body. -/
def offsetPass (dt : Nat) (l : List Nat) : List Nat := offsetPassGo dt [] l

theorem offsetPassGo_length (dt : Nat) :
    ∀ (seen l : List Nat), (offsetPassGo dt seen l).length = l.length := by
  intro seen l
  induction l generalizing seen with
  | nil => rfl
  | cons x xs ih => simpa [offsetPassGo] using ih (x :: seen)

/-- The first occurrence of every value survives a pass unchanged. -/
theorem mem_offsetPassGo_of_not_seen (dt : Nat) :
    ∀ (seen l : List Nat) (a : Nat), a ∈ l → a ∉ seen →
      a ∈ offsetPassGo dt seen l := by
  intro seen l
  induction l generalizing seen with
  | nil => intro a ha; cases ha
  | cons x xs ih =>
      intro a ha hseen
      rcases List.mem_cons.mp ha with rfl | ha'
      · have hc : seen.contains a = false := by simpa using hseen
        rw [offsetPassGo, hc]
        simp
      · by_cases hax : a = x
        · subst hax
          have hc : seen.contains a = false := by simpa using hseen
          rw [offsetPassGo, hc]
          simp
        · rw [offsetPassGo]
          exact List.mem_cons_of_mem _ (ih (x :: seen) a ha' (by
            intro h
            rcases List.mem_cons.mp h with h' | h'
            · exact hax h'
            · exact hseen h'))

theorem mem_offsetPass (dt : Nat) (l : List Nat) (a : Nat) (ha : a ∈ l) :
    a ∈ offsetPass dt l :=
  mem_offsetPassGo_of_not_seen dt [] l a ha (List.not_mem_nil a)

/-- Every value after a pass is an old value or an old value plus the step. -/
theorem offsetPassGo_provenance (dt : Nat) :
    ∀ (seen l : List Nat) (v : Nat), v ∈ offsetPassGo dt seen l →
      v ∈ l ∨ ∃ u ∈ l, v = u + dt := by
  intro seen l
  induction l generalizing seen with
  | nil => intro v hv; cases hv
  | cons x xs ih =>
      intro v hv
      rw [offsetPassGo] at hv
      rcases List.mem_cons.mp hv with hEq | hv'
      · by_cases hc : seen.contains x
        · rw [if_pos hc] at hEq
          exact Or.inr ⟨x, List.mem_cons_self _ _, hEq⟩
        · rw [if_neg hc] at hEq
          exact Or.inl (hEq ▸ List.mem_cons_self _ _)
      · rcases ih (x :: seen) v hv' with h | ⟨u, hu, hv⟩
        · exact Or.inl (List.mem_cons_of_mem _ h)
        · exact Or.inr ⟨u, List.mem_cons_of_mem _ hu, hv⟩

/-- The downward-chain invariant: every present value is an original value or
has its predecessor (one step below) still present. -/
def ChainInv (l₀ : List Nat) (dt : Nat) (l : List Nat) : Prop :=
  ∀ v ∈ l, v ∈ l₀ ∨ (dt ≤ v ∧ v - dt ∈ l)

theorem chainInv_init (l₀ : List Nat) (dt : Nat) : ChainInv l₀ dt l₀ :=
  fun v hv => Or.inl hv

theorem chainInv_pass (l₀ : List Nat) (dt : Nat) (l : List Nat)
    (h : ChainInv l₀ dt l) : ChainInv l₀ dt (offsetPass dt l) := by
  intro v hv
  rcases offsetPassGo_provenance dt [] l v hv with hmem | ⟨u, hu, rfl⟩
  · rcases h v hmem with h0 | ⟨hdt, hpred⟩
    · exact Or.inl h0
    · exact Or.inr ⟨hdt, mem_offsetPass dt l _ hpred⟩
  · refine Or.inr ⟨Nat.le_add_left dt u, ?_⟩
    have : u + dt - dt = u := by omega
    rw [this]
    exact mem_offsetPass dt l u hu

/-- Maximum of a list of naturals. -/
def maxVal (l : List Nat) : Nat := l.foldr max 0

theorem le_maxVal (l : List Nat) (a : Nat) (ha : a ∈ l) : a ≤ maxVal l := by
  induction l with
  | nil => cases ha
  | cons x xs ih =>
      rcases List.mem_cons.mp ha with rfl | ha'
      · exact le_max_left _ _
      · exact le_trans (ih ha') (le_max_right _ _)

/-- From the chain invariant: every value is an original value plus finitely
many steps, with the whole descending chain still present. -/
theorem chainInv_descent (l₀ : List Nat) (dt : Nat) (l : List Nat)
    (hdt : 0 < dt) (hinv : ChainInv l₀ dt l) :
    ∀ v ∈ l, ∃ s k, s ∈ l₀ ∧ v = s + k * dt ∧ ∀ j ≤ k, s + j * dt ∈ l := by
  intro v
  induction v using Nat.strong_induction_on with
  | _ v ihv =>
      intro hv
      rcases hinv v hv with h0 | ⟨hle, hpred⟩
      · refine ⟨v, 0, h0, by ring_nf, ?_⟩
        intro j hj
        interval_cases j
        simpa using hv
      · have hlt : v - dt < v := by omega
        obtain ⟨s, k, hs, hval, hchain⟩ := ihv (v - dt) hlt hpred
        have hmul : (k + 1) * dt = k * dt + dt := by ring
        refine ⟨s, k + 1, hs, by omega, ?_⟩
        intro j hj
        by_cases hjk : j ≤ k
        · exact hchain j hjk
        · have hjEq : j = k + 1 := by omega
          subst hjEq
          have hEq : s + (k + 1) * dt = v := by omega
          rw [hEq]
          exact hv

/-- Values never escape the window `[0, maxVal l₀ + n * dt]`. -/
theorem chainInv_bound (l₀ : List Nat) (dt : Nat) (l : List Nat)
    (hdt : 0 < dt) (hinv : ChainInv l₀ dt l) (hlen : l.length = l₀.length) :
    ∀ v ∈ l, v ≤ maxVal l₀ + l₀.length * dt := by
  intro v hv
  obtain ⟨s, k, hs, hval, hchain⟩ := chainInv_descent l₀ dt l hdt hinv v hv
  have hinj : Function.Injective (fun j : Nat => s + j * dt) := by
    intro i j hEq
    simp only at hEq
    have : i * dt = j * dt := by omega
    exact Nat.eq_of_mul_eq_mul_right hdt this
  have hsub : (Finset.range (k + 1)).image (fun j => s + j * dt) ⊆ l.toFinset := by
    intro x hx
    rcases Finset.mem_image.mp hx with ⟨j, hj, hxj⟩
    rw [List.mem_toFinset, ← hxj]
    exact hchain j (by simpa using Nat.lt_succ_iff.mp (Finset.mem_range.mp hj))
  have hcard : k + 1 ≤ l.length := by
    calc k + 1 = ((Finset.range (k + 1)).image (fun j => s + j * dt)).card := by
          rw [Finset.card_image_of_injective _ hinj, Finset.card_range]
      _ ≤ l.toFinset.card := Finset.card_le_card hsub
      _ ≤ l.length := List.toFinset_card_le l
  have hsmax : s ≤ maxVal l₀ := le_maxVal l₀ s hs
  have hk : k ≤ l₀.length - 1 := by omega
  have hkdt : k * dt ≤ l₀.length * dt := by
    apply Nat.mul_le_mul_right
    omega
  omega

theorem sum_le_of_bound (l : List Nat) (B : Nat) (h : ∀ v ∈ l, v ≤ B) :
    l.sum ≤ l.length * B := by
  induction l with
  | nil => simp
  | cons x xs ih =>
      rw [List.sum_cons, List.length_cons]
      have hx := h x (List.mem_cons_self _ _)
      have := ih (fun v hv => h v (List.mem_cons_of_mem _ hv))
      calc x + xs.sum ≤ B + xs.length * B := by omega
        _ = (xs.length + 1) * B := by ring

theorem sum_offsetPassGo_ge (dt : Nat) :
    ∀ (seen l : List Nat), l.sum ≤ (offsetPassGo dt seen l).sum := by
  intro seen l
  induction l generalizing seen with
  | nil => exact le_refl _
  | cons x xs ih =>
      rw [offsetPassGo, List.sum_cons, List.sum_cons]
      have h1 : x ≤ if seen.contains x then x + dt else x := by
        split <;> omega
      have h2 := ih (x :: seen)
      omega

/-- A pass over an index with a duplicate strictly increases the sum. -/
theorem sum_offsetPassGo_gain (dt : Nat) :
    ∀ (seen l : List Nat), hasDupIndex l = true →
      l.sum + dt ≤ (offsetPassGo dt seen l).sum := by
  have haux : ∀ (seen l : List Nat) (x : Nat), x ∈ l → x ∈ seen →
      l.sum + dt ≤ (offsetPassGo dt seen l).sum := by
    intro seen l
    induction l generalizing seen with
    | nil => intro x hx; cases hx
    | cons y ys ih =>
        intro x hx hxs
        rw [offsetPassGo, List.sum_cons, List.sum_cons]
        rcases List.mem_cons.mp hx with rfl | hx'
        · have hc : seen.contains x = true := by simpa using hxs
          rw [hc]
          have := sum_offsetPassGo_ge dt (x :: seen) ys
          simp only [if_true]
          omega
        · have := ih (y :: seen) x hx' (List.mem_cons_of_mem _ hxs)
          have h1 : y ≤ if seen.contains y then y + dt else y := by
            split <;> omega
          omega
  intro seen l
  induction l generalizing seen with
  | nil => intro h; cases h
  | cons x xs ih =>
      intro hdup
      rw [hasDupIndex, Bool.or_eq_true] at hdup
      rcases hdup with hmem | hdup'
      · have hx : x ∈ xs := by simpa using hmem
        rw [offsetPassGo, List.sum_cons, List.sum_cons]
        have := haux (x :: seen) xs x hx (List.mem_cons_self _ _)
        have h1 : x ≤ if seen.contains x then x + dt else x := by
          split <;> omega
        omega
      · rw [offsetPassGo, List.sum_cons, List.sum_cons]
        have := ih (x :: seen) hdup'
        have h1 : x ≤ if seen.contains x then x + dt else x := by
          split <;> omega
        omega

theorem offset_terminates_aux (l₀ : List Nat) (dt : Nat) (hdt : 0 < dt) :
    ∀ (fuel : Nat) (l : List Nat), ChainInv l₀ dt l → l.length = l₀.length →
      l₀.length * (maxVal l₀ + l₀.length * dt) + 1 ≤ l.sum + fuel →
      ∃ k, hasDupIndex ((offsetPass dt)^[k] l) = false := by
  intro fuel
  induction fuel with
  | zero =>
      intro l hinv hlen hbound
      exfalso
      have := sum_le_of_bound l (maxVal l₀ + l₀.length * dt)
        (chainInv_bound l₀ dt l hdt hinv hlen)
      rw [hlen] at this
      omega
  | succ fuel ih =>
      intro l hinv hlen hbound
      cases hdup : hasDupIndex l with
      | false => exact ⟨0, by simpa using hdup⟩
      | true =>
          obtain ⟨k, hk⟩ := ih (offsetPass dt l)
            (chainInv_pass l₀ dt l hinv)
            (by rw [offsetPass, offsetPassGo_length, hlen])
            (by
              have := sum_offsetPassGo_gain dt [] l hdup
              rw [offsetPass]
              omega)
          refine ⟨k + 1, ?_⟩
          rw [Function.iterate_succ_apply]
          exact hk

/--
C8: for every finite index and every strictly positive step, the `offset`
deduplication policy terminates: some finite number of passes of
`np.where(index.duplicated(), index + dt, index)` reaches an index with no
duplicate timestamps — which is exactly the exit condition of the
`while self.check_duplicated_index()` loop, so on termination the index has
no duplicates.  (One pass may create new collisions, but every occupied value
stays occupied, so each value can climb only as far as the highest original
value plus one step per record, and each non-final pass strictly increases
the sum of the index.)
-/
theorem C8_dedup_offset_terminates (l : List Nat) (dt : Nat) (hdt : 0 < dt) :
    ∃ k, hasDupIndex ((offsetPass dt)^[k] l) = false := by
  apply offset_terminates_aux l dt hdt (l.length * (maxVal l + l.length * dt) + 1 )
    l (chainInv_init l dt) rfl
  omega

/-- Witness for C8: the index `[0, 0, 1]` with a one-second step reaches a
duplicate-free index after finitely many passes. -/
theorem C8_witness :
    ∃ k, hasDupIndex ((offsetPass 1)^[k] [0, 0, 1]) = false :=
  C8_dedup_offset_terminates [0, 0, 1] 1 (by decide)

/-! ### Light cycle -/

/-- A clock time (`datetime.time`): hour and minute. -/
structure ClockTime where
  hour : Nat
  minute : Nat
deriving DecidableEq

/-- `lightcycle.time_to_float`: `x.hour + (1/60) * x.minute`, as an exact
rational (built with `Rat.divInt` to stay kernel-computable; see
`timeToFloat_eq`). -/
def timeToFloat (x : ClockTime) : ℚ :=
  Rat.divInt ((x.hour * 60 + x.minute : Nat) : Int) 60

theorem timeToFloat_eq (x : ClockTime) :
    timeToFloat x = (x.hour : ℚ) + (1 / 60) * (x.minute : ℚ) := by
  rw [timeToFloat, Rat.divInt_eq_div]
  push_cast
  ring

/-- Timestamps are modelled in whole minutes; the hour and minute fields of a
timestamp (`datetime.hour`, `datetime.minute`). -/
def tsClock (t : Nat) : ClockTime :=
  ClockTime.mk (t % 1440 / 60) (t % 60)

/-- `lightcycle.is_at_night`. -/
def isAtNight (t : Nat) (lightsOn lightsOff : ClockTime) : Bool :=
  let ashour := timeToFloat (tsClock t)
  let onF := timeToFloat lightsOn
  let offF := timeToFloat lightsOff
  if offF < onF then decide (offF ≤ ashour) && decide (ashour < onF)
  else decide (ashour < onF) || decide (offF ≤ ashour)

/-- `t.replace(hour=c.hour, minute=c.minute).floor('1T')`: same calendar day,
clock set to `c` (the floor to whole minutes is a no-op at minute
resolution). -/
def replaceClock (t : Nat) (c : ClockTime) : Nat :=
  (t / 1440) * 1440 + c.hour * 60 + c.minute

/-- The boundary-walking loop of `lightcycle.lightcycle_tuples`.
`lookforOff = true` models `lookfor == 'off'`.  `fuel` bounds the number of
loop iterations; since every iteration either breaks at `end_date` or moves
`t` strictly forward by at least one minute (clamped to `end_date`),
`endD + 2` iterations always suffice for a terminating run. -/
def lightcycleGo (lightsOn lightsOff : ClockTime) (endD : Nat) :
    Nat → Nat → Bool → List Nat
  | 0, _, _ => []
  | fuel + 1, t, lookforOff =>
      if t = endD then
        if lookforOff = false ∧ isAtNight endD lightsOn lightsOff then [endD]
        else []
      else
        let night := isAtNight t lightsOn lightsOff
        let step :=
          if lookforOff then
            if night then (true, replaceClock t lightsOn, false)
            else (false, replaceClock t lightsOff, true)
          else
            if !night then (true, replaceClock t lightsOff, true)
            else (false, replaceClock t lightsOn, false)
        let nt1 := if step.2.1 < t then step.2.1 + 1440 else step.2.1
        let nt := if endD < nt1 then endD else nt1
        (if step.1 then [t] else []) ++
          lightcycleGo lightsOn lightsOff endD fuel nt step.2.2

/-- `result[::2]` zipped with `result[1::2]`: consecutive boundary crossings
paired into `(start, end)` tuples (an odd trailing element is discarded, as
by `zip`). -/
def pairup : List Nat → List (Nat × Nat)
  | a :: b :: rest => (a, b) :: pairup rest
  | _ => []

/-- `lightcycle.lightcycle_tuples` (timestamps in whole minutes). -/
def lightcycleTuples (startD endD : Nat) (lightsOn lightsOff : ClockTime)
    (kind : String) : Except String (List (Nat × Nat)) :=
  if kind = "days" ∨ kind = "nights" then
    Except.ok (pairup (lightcycleGo lightsOn lightsOff endD (endD + 2) startD
      (kind = "nights")))
  else
    Except.error "kind must be nights or days"

/-- Comparison of sixtieths reduces to comparison of the numerators. -/
theorem divInt60_lt (a b : Int) : Rat.divInt a 60 < Rat.divInt b 60 ↔ a < b := by
  rw [Rat.divInt_eq_div, Rat.divInt_eq_div, div_lt_div_iff_of_pos_right (by norm_num)]
  exact Int.cast_lt

theorem divInt60_le (a b : Int) : Rat.divInt a 60 ≤ Rat.divInt b 60 ↔ a ≤ b := by
  rw [Rat.divInt_eq_div, Rat.divInt_eq_div, div_le_div_iff_of_pos_right (by norm_num)]
  exact Int.cast_le

theorem tsClock_float (t : Nat) :
    timeToFloat (tsClock t) = Rat.divInt ((t % 1440 : Nat) : Int) 60 := by
  rw [timeToFloat, tsClock]
  congr 1
  have : t % 1440 / 60 * 60 + t % 60 = t % 1440 := by omega
  exact_mod_cast congrArg (fun n : Nat => (n : Int)) this

/-- `is_at_night` with the standard 07:00 / 19:00 light cycle, as a predicate
on the minute of the day. -/
theorem isAtNight_7_19 (t : Nat) :
    isAtNight t (ClockTime.mk 7 0) (ClockTime.mk 19 0) = true ↔
      (t % 1440 < 420 ∨ 1140 ≤ t % 1440) := by
  rw [isAtNight]
  have hon : timeToFloat (ClockTime.mk 7 0) = Rat.divInt 420 60 := rfl
  have hoff : timeToFloat (ClockTime.mk 19 0) = Rat.divInt 1140 60 := rfl
  simp only [hon, hoff, tsClock_float]
  rw [if_neg (by rw [divInt60_lt]; omega)]
  simp only [Bool.or_eq_true, decide_eq_true_eq, divInt60_lt, divInt60_le]
  omega

/-- The fractional hour of any timestamp is non-negative. -/
theorem tsClock_float_nonneg (t : Nat) : 0 ≤ timeToFloat (tsClock t) := by
  rw [tsClock_float]
  rw [show (0 : ℚ) = Rat.divInt 0 60 by norm_num [Rat.divInt_eq_div]]
  rw [divInt60_le]
  omega

/-- The fractional hour of any timestamp is below 24. -/
theorem tsClock_float_lt_24 (t : Nat) : timeToFloat (tsClock t) < 24 := by
  rw [tsClock_float]
  rw [show (24 : ℚ) = Rat.divInt 1440 60 by norm_num [Rat.divInt_eq_div]]
  rw [divInt60_lt]
  omega

/--
C9: (i) over the 48-hour window from day-0 noon (minute 720) to day-2 noon
(minute 3600) with `lights_on = 07:00` and `lights_off = 19:00`, the
night-interval listing returns exactly the two tuples
`(19:00 day 0, 07:00 day 1)` and `(19:00 day 1, 07:00 day 2)`, each exactly
12 hours (720 minutes) long; within the window those two disjoint intervals
cover exactly the timestamps satisfying `is_at_night` (no gaps, no overlaps);
(ii) for every timestamp and light-cycle configuration, night membership is
the half-open interval `[off, on)` when the light-on time is later than the
light-off time, and `[0, on) ∪ [off, 24)` otherwise.
-/
theorem C9_lightcycle_nights :
    (lightcycleTuples 720 3600 (ClockTime.mk 7 0) (ClockTime.mk 19 0) "nights" =
      Except.ok [(1140, 1860), (2580, 3300)] ∧
      1860 - 1140 = 720 ∧ 3300 - 2580 = 720 ∧ (1860 : Nat) ≤ 2580) ∧
    (∀ t : Nat, 720 ≤ t → t < 3600 →
      (isAtNight t (ClockTime.mk 7 0) (ClockTime.mk 19 0) = true ↔
        ((1140 ≤ t ∧ t < 1860) ∨ (2580 ≤ t ∧ t < 3300)))) ∧
    (∀ (t : Nat) (lightsOn lightsOff : ClockTime),
      (timeToFloat lightsOff < timeToFloat lightsOn →
        (isAtNight t lightsOn lightsOff = true ↔
          timeToFloat (tsClock t) ∈
            Set.Ico (timeToFloat lightsOff) (timeToFloat lightsOn))) ∧
      (¬ timeToFloat lightsOff < timeToFloat lightsOn →
        (isAtNight t lightsOn lightsOff = true ↔
          timeToFloat (tsClock t) ∈
            Set.Ico (0 : ℚ) (timeToFloat lightsOn) ∪
              Set.Ico (timeToFloat lightsOff) 24))) := by
  refine ⟨⟨rfl, rfl, rfl, by omega⟩, ?_, ?_⟩
  · intro t h1 h2
    rw [isAtNight_7_19]
    omega
  · intro t lightsOn lightsOff
    constructor
    · intro hinv
      rw [isAtNight]
      rw [if_pos hinv]
      simp [Set.mem_Ico]
    · intro hinv
      rw [isAtNight]
      rw [if_neg hinv]
      simp only [Bool.or_eq_true, decide_eq_true_eq, Set.mem_union, Set.mem_Ico]
      constructor
      · intro h
        rcases h with h | h
        · exact Or.inl ⟨tsClock_float_nonneg t, h⟩
        · exact Or.inr ⟨h, tsClock_float_lt_24 t⟩
      · intro h
        rcases h with ⟨_, h⟩ | ⟨h, _⟩
        · exact Or.inl h
        · exact Or.inr h

/-- Witness for C9: minute 1200 (20:00 of day 0) lies inside the window and
is at night; the second conjunct applied at it, and the third conjunct's
wraparound case applied to the standard light cycle. -/
theorem C9_witness :
    isAtNight 1200 (ClockTime.mk 7 0) (ClockTime.mk 19 0) = true :=
  (C9_lightcycle_nights.2.1 1200 (by omega) (by omega)).mpr (by omega)

end Fed3
